import Mathlib

/-!
Verification development for the baleen-python core algorithms:
the phrase-structure-tree offset mapper `parse_pstree` (`lib/baleen/vars.py`)
and the tentailment-chain pruner `prune_tentails`
(`lib/baleen/n4j/postproc.py`).
-/

namespace Baleen

/-! ### Tokenization of the labeled-bracket parse string

`parse_pstree` scans the parse string with
`symbol_re = re.compile('\(\s*([^\s()]+)?|\)|([^\s()]+[^()]*)')`.
`re.finditer` moves left to right and skips characters that start no match
(only whitespace can do so).  The label after an opening bracket is never
used by the algorithm (`symbol[0] == open_b` is the only test), so tokens
do not keep label or leaf text. -/

/-- Symbols produced by the tokenizing regular expression of `parse_pstree`:
opening bracket (with optional label), closing bracket, or leaf token. -/
inductive Tok where
  | opn
  | cls
  | leaf
  deriving DecidableEq, Repr

/-- Whitespace as matched by `\s` (the ASCII part, which is all that occurs
in CoreNLP parse strings). -/
def isWs (c : Char) : Bool :=
  c = ' ' || c = '\t' || c = '\n' || c = '\r' || c = '\x0b' || c = '\x0c'

/-- Bracket characters, the `open_b, close_b = '()'` pair of `parse_pstree`. -/
def isBr (c : Char) : Bool := c = '(' || c = ')'

/-- Position of the left-to-right regex scan inside the current match:
between matches (`norm`), inside the `\s*` part after an opening bracket
(`opnWs`), inside the label `[^\s()]+` after an opening bracket (`opnTxt`),
or inside a leaf match `[^\s()]+[^()]*`, whose tail accepts any non-bracket
character including whitespace (`leafTxt`). -/
inductive ScanSt where
  | norm
  | opnWs
  | opnTxt
  | leafTxt
  deriving DecidableEq, Repr

/-- Character-by-character form of the `re.finditer(parse)` scan with
`symbol_re`.  At a scan position, `(` always starts an open match, `)` a
close match, any other non-space character a leaf match, and whitespace
starts no match and is skipped; the three non-`norm` states consume the
remainder of an open or leaf match. -/
def scanTok : ScanSt → List Char → List Tok
  | _, [] => []
  | .norm, c :: cs =>
    if c = '(' then Tok.opn :: scanTok .opnWs cs
    else if c = ')' then Tok.cls :: scanTok .norm cs
    else if isWs c then scanTok .norm cs
    else Tok.leaf :: scanTok .leafTxt cs
  | .opnWs, c :: cs =>
    if c = '(' then Tok.opn :: scanTok .opnWs cs
    else if c = ')' then Tok.cls :: scanTok .norm cs
    else if isWs c then scanTok .opnWs cs
    else scanTok .opnTxt cs
  | .opnTxt, c :: cs =>
    if c = '(' then Tok.opn :: scanTok .opnWs cs
    else if c = ')' then Tok.cls :: scanTok .norm cs
    else if isWs c then scanTok .norm cs
    else scanTok .opnTxt cs
  | .leafTxt, c :: cs =>
    if c = '(' then Tok.opn :: scanTok .opnWs cs
    else if c = ')' then Tok.cls :: scanTok .norm cs
    else scanTok .leafTxt cs

/-- Tokenization of the parse string by `symbol_re`.  A leaf matches
`[^\s()]+[^()]*`: it starts at a non-space non-bracket character and extends
greedily to the next bracket, so a run of words separated only by whitespace
becomes a single leaf token. -/
def tokenize (cs : List Char) : List Tok := scanTok .norm cs

/-! ### The element tree built by `parse_pstree`

The Python code builds an lxml element tree rooted at an artificial
`__ROOT__` element, mutating a `parent` pointer.  The `start`/`end`
attributes of an element are always written together, so they are modeled as
one optional pair; writing a missing (`None`) value raises `TypeError` in the
source and is modeled as an error. -/

/-- An element of the tree built by `parse_pstree`: its `start`/`end`
attributes (absent until first written) and its child elements in document
order. -/
inductive PTree where
  | node (attrs : Option (Nat × Nat)) (kids : List PTree)

/-- Attributes of an element (`elem.get('start'), elem.get('end')`). -/
def PTree.attrs : PTree → Option (Nat × Nat)
  | .node a _ => a

/-- Children of an element, in document order. -/
def PTree.kids : PTree → List PTree
  | .node _ k => k

/-- A still-open element on the ancestor chain: attributes written so far and
completed children so far. -/
structure Frame where
  attrs : Option (Nat × Nat)
  kids : List PTree

/-- Failures of `parse_pstree`:
`closeNoOpen` models the `AttributeError` raised when a closing bracket pops
past the artificial root (`parent.getparent()` is `None`);
`noAttr` models the `TypeError` raised when a missing attribute (`None`) is
written by `parent.set` or converted by `int` — this happens exactly when a
node closes with no children, and at the end of the scan when the element the
`parent` pointer rests on has no children;
`tokGone` models the `IndexError` raised by `tokens_elem[token_count]` when a
leaf is scanned but the token sequence is exhausted. -/
inductive PErr where
  | closeNoOpen
  | noAttr
  | tokGone
  deriving DecidableEq, Repr

/-- The `for match in symbol_re.finditer(parse)` loop of `parse_pstree`, with
the mutable `parent` pointer made explicit as the innermost open element
`top` plus the chain `rest` of its open ancestors (bottom of the chain is the
artificial `__ROOT__` element), and `tc` the `token_count` counter.

On `(`: append a fresh element and descend.  On `)`: pop to the parent, then
set the parent's `start` to its first child's `start` and its `end` to its
last child's `end` (the just-closed element).  On a leaf: copy the offsets of
token number `tc` onto the current parent and append a terminal element
carrying them.  Returns the element `parent` points to when the loop ends. -/
def build (spans : List (Nat × Nat)) :
    List Tok → Nat → Frame → List Frame → Except PErr Frame
  | [], _, top, _ => .ok top
  | .opn :: ts, tc, top, rest => build spans ts tc ⟨none, []⟩ (top :: rest)
  | .cls :: ts, tc, top, rest =>
    match rest with
    | [] => .error .closeNoOpen
    | parent :: rest' =>
      let closed := PTree.node top.attrs top.kids
      match (parent.kids.headD closed).attrs, closed.attrs with
      | some (s, _), some (_, e) =>
          build spans ts tc ⟨some (s, e), parent.kids ++ [closed]⟩ rest'
      | _, _ => .error .noAttr
  | .leaf :: ts, tc, top, rest =>
    match spans.get? tc with
    | none => .error .tokGone
    | some (s, e) =>
        build spans ts (tc + 1)
          ⟨some (s, e), top.kids ++ [PTree.node (some (s, e)) []]⟩ rest

mutual

/-- Document-order enumeration of an element and its descendants
(`parent.iter()` in lxml). -/
def preorder : PTree → List PTree
  | .node a ks => PTree.node a ks :: preorderL ks

/-- Document-order enumeration of a forest of sibling elements. -/
def preorderL : List PTree → List PTree
  | [] => []
  | t :: ts => preorder t ++ preorderL ts

end

/-- Attribute pairs of a list of elements; `none` as soon as one element
misses its attributes. -/
def attrsList : List PTree → Option (List (Nat × Nat))
  | [] => some []
  | t :: ts =>
    match t.attrs, attrsList ts with
    | some a, some r => some (a :: r)
    | _, _ => none

/-- The final dict comprehension of `parse_pstree`: element number `n` in
document order is mapped to `(int(start), int(end))`; `int` applied to a
missing attribute raises `TypeError`. -/
def spanList (t : PTree) : Except PErr (List (Nat × Nat)) :=
  match attrsList (preorder t) with
  | some l => .ok l
  | none => .error .noAttr

/-- The element tree that the `parent` pointer rests on after the scan. -/
def buildTree (spans : List (Nat × Nat)) (ts : List Tok) : Except PErr PTree :=
  match build spans ts 0 ⟨none, []⟩ [] with
  | .error e => .error e
  | .ok top => .ok (PTree.node top.attrs top.kids)

/-- Offset mapping computed from a token sequence. -/
def parseToks (spans : List (Nat × Nat)) (ts : List Tok) :
    Except PErr (List (Nat × Nat)) :=
  match buildTree spans ts with
  | .error e => .error e
  | .ok t => spanList t

/-- Shallow embedding of `parse_pstree(parse, tokens_elem)` from
`lib/baleen/vars.py`: `spans` holds the `(CharacterOffsetBegin,
CharacterOffsetEnd)` pairs of the tokens of the sentence, in order.  The
result list is the returned dict: position `n` holds the offsets of node
number `n`. -/
def parse_pstree (parse : String) (spans : List (Nat × Nat)) :
    Except PErr (List (Nat × Nat)) :=
  parseToks spans (tokenize parse.data)

/-! ### Combinatorial views of the token sequence

These predicates describe the shape of the token sequence independently of
the tree-building loop; the failure behaviour of `parse_pstree` is
characterised in terms of them below. -/

/-- Number of leaf tokens of the parse string. -/
def leafCount : List Tok → Nat
  | [] => 0
  | .leaf :: ts => leafCount ts + 1
  | _ :: ts => leafCount ts

/-- Scanning at bracket depth `d`, some closing bracket occurs with no
matching open (the depth would drop below zero). -/
def closeDrop : List Tok → Nat → Bool
  | [], _ => false
  | .cls :: _, 0 => true
  | .cls :: ts, d + 1 => closeDrop ts d
  | .opn :: ts, d => closeDrop ts (d + 1)
  | .leaf :: ts, d => closeDrop ts d

/-- An opening bracket immediately followed by a closing bracket: some node
closes with zero children. -/
def emptyPair : List Tok → Bool
  | .opn :: .cls :: _ => true
  | _ :: ts => emptyPair ts
  | [] => false

/-- First token is a closing bracket. -/
def hdCls : List Tok → Bool
  | .cls :: _ => true
  | _ => false

/-- The scan would end with a childless current parent: the token sequence
ends with an opening bracket, or it is empty while the current parent
already has no children (flag `te`).  Then the element the `parent` pointer
rests on at the end of the scan misses its attributes. -/
def endBad : List Tok → Bool → Bool
  | [], te => te
  | [.opn], _ => true
  | [_], _ => false
  | _ :: t :: ts, te => endBad (t :: ts) te

/-- Balanced bracket sequence relative to depth `d`: no close drops below
the start depth and the scan ends back at depth zero. -/
def balanced : List Tok → Nat → Bool
  | [], d => d == 0
  | .opn :: ts, d => balanced ts (d + 1)
  | .cls :: _, 0 => false
  | .cls :: ts, d + 1 => balanced ts d
  | .leaf :: ts, d => balanced ts d

/-- Abstraction of the `parse_pstree` scan that keeps only what failure
depends on: the remaining token-span budget `r`, whether the current parent
element has no children yet (`te`), and the number of open ancestor elements
`d`.  Returns the error the scan raises, if any. -/
def absRun : List Tok → Nat → Bool → Nat → Option PErr
  | [], _, te, _ => if te then some .noAttr else none
  | .opn :: ts, r, _, d => absRun ts r true (d + 1)
  | .cls :: _, _, _, 0 => some .closeNoOpen
  | .cls :: ts, r, te, d + 1 => if te then some .noAttr else absRun ts r false d
  | .leaf :: _, 0, _, _ => some .tokGone
  | .leaf :: ts, r + 1, _, d => absRun ts r false d

/-- Error projection of a `parse_pstree` style result. -/
def errOf : Except PErr (List (Nat × Nat)) → Option PErr
  | .error e => some e
  | .ok _ => none

mutual

/-- Every element of the tree carries `start`/`end` attributes. -/
def PTree.full : PTree → Bool
  | .node a ks => a.isSome && fullL ks

/-- Conjunction of `PTree.full` over a forest. -/
def fullL : List PTree → Bool
  | [] => true
  | t :: ts => t.full && fullL ts

end

/-- Invariant of every frame reachable by `build`: attributes are present
exactly when the frame has children (a frame's attributes are written
exactly by the events that append a child to it), and every completed child
carries attributes everywhere. -/
def frameOk (f : Frame) : Prop :=
  f.attrs.isSome = !f.kids.isEmpty ∧ fullL f.kids = true

/-- Remainder of `parse_pstree` from an intermediate state of the scan:
finish the loop, then build the node-number to offsets dict from the element
the `parent` pointer rests on. -/
def runFrom (spans : List (Nat × Nat)) (ts : List Tok) (tc : Nat) (top : Frame)
    (rest : List Frame) : Except PErr (List (Nat × Nat)) :=
  match build spans ts tc top rest with
  | .error e => .error e
  | .ok t => spanList (PTree.node t.attrs t.kids)

/-! ### The tentailment graph and `prune_tentails`

`prune_tentails` (`lib/baleen/n4j/postproc.py`) operates on the Neo4j graph
produced by CSV import (`lib/baleen/n4j/csvimport.py`).  The relationship
types incident to `VariableType` nodes at that stage are `TENTAILS_VAR`
(between two `VariableType` nodes, carrying a `transformName` property) and
`HAS_VAR` (from an `EventInst` node to a `VariableType` node).  Node
identities are modeled as naturals; `VariableType` and `EventInst` node
identities are distinct in the store, so the `vars` and `events` lists are
meant to be disjoint (stated as a hypothesis where a claim needs it).

Cypher query semantics captured here:
* a `MATCH` enumerates rows in an engine-chosen order; the model fixes the
  scan order to list order, a legitimate instance of that behaviour;
* one relationship cannot be bound to two relationship variables of a single
  pattern, hence the `e1 ≠ e2` conjunct in the collapse condition;
* `size((v)--())` counts each incident relationship once;
* `WITH ... LIMIT 25000` only batches the work; every query is re-run until
  it deletes nothing, so the fixed point is the same as deleting one
  candidate at a time (as shown in the source comments, matched triples of
  one batch cannot interfere: a matched middle node has total degree 2 and
  is unreferenced, so it cannot be endpoint of another matched triple);
* `MERGE (v1)-[:TENTAILS_VAR]->(v3)` matches any `TENTAILS_VAR`
  relationship from `v1` to `v3` regardless of properties and creates a
  property-less one when none exists.  (If `v3` happens to be the deleted
  `v2` — only possible when `v2` carried a self-loop — the real store would
  raise; the model instead records the dangling edge.) -/

/-- A `TENTAILS_VAR` relationship: source and target `VariableType` node and
the optional `transformName` property. -/
structure TEdge where
  src : Nat
  dst : Nat
  tname : Option String
  deriving DecidableEq, Repr

/-- The slice of the Neo4j store that `prune_tentails` reads and writes:
`VariableType` nodes, `EventInst` nodes, `TENTAILS_VAR` relationships and
`HAS_VAR` relationships (event, variable). -/
structure Graph where
  vars : List Nat
  events : List Nat
  tent : List TEdge
  hasVar : List (Nat × Nat)
  deriving DecidableEq, Repr

/-- Number of outgoing relationships of a `VariableType` node,
`size((v)-->())` in query 2: the only outgoing relationship type of a
`VariableType` node is `TENTAILS_VAR`. -/
def outAll (g : Graph) (v : Nat) : Nat :=
  (g.tent.filter (fun e => e.src == v)).length

/-- Total number of incident relationships of a `VariableType` node,
`size((v)--())` in query 3: `TENTAILS_VAR` in either direction plus incoming
`HAS_VAR`. -/
def degAll (g : Graph) (v : Nat) : Nat :=
  (g.tent.filter (fun e => e.src == v || e.dst == v)).length +
    (g.hasVar.filter (fun p => p.2 == v)).length

/-- Number of incoming `TENTAILS_VAR` relationships of a `VariableType`
node. -/
def inTent (g : Graph) (v : Nat) : Nat :=
  (g.tent.filter (fun e => e.dst == v)).length

/-- The pattern `(:EventInst)-[:HAS_VAR]->(v)`: the node occurs in an
observed event. -/
def referenced (g : Graph) (v : Nat) : Bool :=
  g.hasVar.any (fun p => g.events.contains p.1 && p.2 == v)

/-- `DETACH DELETE v` for a `VariableType` node: remove the node and every
relationship incident to it. -/
def removeNode (g : Graph) (v : Nat) : Graph :=
  { vars := g.vars.erase v
    events := g.events
    tent := g.tent.filter (fun e => !(e.src == v) && !(e.dst == v))
    hasVar := g.hasVar.filter (fun p => !(p.1 == v) && !(p.2 == v)) }

/-- Query 2 of `prune_tentails`: the first `VariableType` node with no
outgoing relationship that does not occur in an observed event. -/
def findSink (g : Graph) : Option Nat :=
  g.vars.find? (fun v => outAll g v == 0 && !referenced g v)

/-- The `WHERE` condition of query 3 on a candidate pair of edges
`e1 : v1→v2`, `e2 : v2→v3`: the two relationship variables are distinct, all
three nodes are `VariableType` nodes, `size((v2)--()) = 2`, and
`size((v1)--()) > 2 OR (:EventInst)-[:HAS_VAR]->(v1)`. -/
def collPred (g : Graph) (e1 e2 : TEdge) : Bool :=
  !(e1 == e2) && e1.dst == e2.src &&
    g.vars.contains e1.src && g.vars.contains e1.dst &&
    g.vars.contains e2.dst &&
    degAll g e1.dst == 2 &&
    (2 < degAll g e1.src || referenced g e1.src)

/-- Scan for the first pair of edges matching query 3's pattern. -/
def findCollapseIn (g : Graph) : List TEdge → Option (TEdge × TEdge)
  | [] => none
  | e1 :: es =>
    match g.tent.find? (fun e2 => collPred g e1 e2) with
    | some e2 => some (e1, e2)
    | none => findCollapseIn g es

/-- Query 3 of `prune_tentails`: the first matched triple
`(v1)-[e1:TENTAILS_VAR]->(v2)-[e2:TENTAILS_VAR]->(v3)`. -/
def findCollapse (g : Graph) : Option (TEdge × TEdge) :=
  findCollapseIn g g.tent

/-- `MERGE (a)-[:TENTAILS_VAR]->(b)`: create a property-less relationship
only when no `TENTAILS_VAR` relationship from `a` to `b` exists. -/
def mergeTent (g : Graph) (a b : Nat) : Graph :=
  if g.tent.any (fun e => e.src == a && e.dst == b) then g
  else { g with tent := g.tent ++ [⟨a, b, none⟩] }

/-- The action of query 3 on a matched triple: `DETACH DELETE v2` then
`MERGE (v1)-[:TENTAILS_VAR]->(v3)`. -/
def collapseAt (g : Graph) (e1 e2 : TEdge) : Graph :=
  mergeTent (removeNode g e1.dst) e1.src e2.dst

/-- Walk of the `TENTAILS_VAR` relationships that keeps only the first
relationship of each `(v1, v2)` endpoint pair; `seen` holds the endpoint
pairs already encountered. -/
def dedupTentGo (seen : List (Nat × Nat)) : List TEdge → List TEdge
  | [] => []
  | e :: es =>
    if (e.src, e.dst) ∈ seen then dedupTentGo seen es
    else e :: dedupTentGo ((e.src, e.dst) :: seen) es

/-- Query 1 of `prune_tentails`: for every ordered pair `(v1, v2)` collect
the parallel `TENTAILS_VAR` relationships and delete all but the first
(`TAIL (COLLECT (r))` is deleted). -/
def dedupTent (l : List TEdge) : List TEdge := dedupTentGo [] l

/-- The combined fixed-point loop of `prune_tentails`: queries 2 and 3 are
re-run until a full pass deletes nothing.  Each application of either query
deletes one `VariableType` node, and a collapse never creates a new sink
(the predecessor keeps an outgoing relationship via the merge), so deleting
one candidate at a time, sinks first, reaches the same fixed point as the
batched loop in the source. -/
def pruneLoop (g : Graph) : Graph :=
  match hs : findSink g with
  | some v => pruneLoop (removeNode g v)
  | none =>
    match hc : findCollapse g with
    | some (e1, e2) => pruneLoop (collapseAt g e1 e2)
    | none => g
termination_by g.vars.length
decreasing_by
  · have hm : v ∈ g.vars := List.mem_of_find?_eq_some hs
    have := List.length_erase_add_one hm
    simp only [removeNode]
    omega
  · show (collapseAt g e1 e2).vars.length < g.vars.length
    have hpred : ∀ l : List TEdge,
        findCollapseIn g l = some (e1, e2) → collPred g e1 e2 = true := by
      intro l
      induction l with
      | nil => intro h; cases h
      | cons a es ih =>
        intro h
        rw [findCollapseIn] at h
        rcases hf : g.tent.find? (fun e2 => collPred g a e2) with _ | e2h
        · rw [hf] at h
          exact ih h
        · rw [hf] at h
          obtain ⟨rfl, rfl⟩ : a = e1 ∧ e2h = e2 := by simpa using h
          exact List.find?_some hf
    have hp := hpred g.tent hc
    have hm : e1.dst ∈ g.vars := by
      simp only [collPred, Bool.and_eq_true] at hp
      simpa using hp.1.1.1.2
    have hv : (collapseAt g e1 e2).vars = (removeNode g e1.dst).vars := by
      simp only [collapseAt, mergeTent]
      split <;> rfl
    rw [hv]
    have := List.length_erase_add_one hm
    simp only [removeNode]
    omega

/-- Shallow embedding of `prune_tentails(session)` from
`lib/baleen/n4j/postproc.py`: deduplicate parallel `TENTAILS_VAR`
relationships once, then run the combined deletion loop to its fixed
point. -/
def prune_tentails (g : Graph) : Graph :=
  pruneLoop { g with tent := dedupTent g.tent }

/-- One `TENTAILS_VAR` hop from `x` to `y`. -/
def tentRel (g : Graph) (x y : Nat) : Prop :=
  ∃ e ∈ g.tent, e.src = x ∧ e.dst = y

/-- Reachability along `TENTAILS_VAR` relationships. -/
def reach (g : Graph) : Nat → Nat → Prop :=
  Relation.ReflTransGen (tentRel g)

/-- Every node that is event-referenced or has more than one incident
relationship is a `VariableType` node of the graph.  This holds of any
well-formed store slice and is preserved by the pruning steps. -/
def keepClosed (g : Graph) : Prop :=
  ∀ v : Nat, referenced g v = true ∨ 1 < degAll g v → v ∈ g.vars

/-- The conditions under which the remaining scan raises no error:
no close drops below the start depth, enough spans remain for the leaves,
no close arrives while the current parent is childless (first token closing
a childless parent, or an open bracket immediately followed by a close), and
the scan does not end inside a childless parent. -/
def scanOk (ts : List Tok) (r : Nat) (te : Bool) (d : Nat) : Prop :=
  closeDrop ts d = false ∧ leafCount ts ≤ r ∧ (te = true → hdCls ts = false) ∧
    emptyPair ts = false ∧ endBad ts te = false

/-! ### Size of the produced mapping -/

/-- Number of opening-bracket tokens. -/
def opnCount : List Tok → Nat
  | [] => 0
  | .opn :: ts => opnCount ts + 1
  | _ :: ts => opnCount ts

mutual

/-- Number of elements of a tree (the element itself and its descendants). -/
def nElems : PTree → Nat
  | .node _ ks => 1 + nElemsL ks

/-- Number of elements of a forest. -/
def nElemsL : List PTree → Nat
  | [] => 0
  | t :: ts => nElems t + nElemsL ts

end

/-- Total number of elements held by the open frames of the scan (each frame
is itself an element and owns its completed children). -/
def stackElems (top : Frame) (rest : List Frame) : Nat :=
  (1 + nElemsL top.kids) + (rest.map (fun f => 1 + nElemsL f.kids)).sum

/-! ### Terminal spans: left-to-right leaf consumption -/

mutual

/-- Spans of the terminal elements of a tree, in document (left-to-right
leaf) order; a childless element is a terminal. -/
def termSpans : PTree → List (Nat × Nat)
  | .node a [] =>
    match a with
    | some p => [p]
    | none => []
  | .node _ (k :: ks) => termSpansL (k :: ks)

/-- Terminal spans of a forest in document order. -/
def termSpansL : List PTree → List (Nat × Nat)
  | [] => []
  | t :: ts => termSpans t ++ termSpansL ts

end

/-- Terminal spans held by the open frames of the scan, in creation order:
the elements owned by the bottom (`__ROOT__`) frame come first, the current
parent's last. -/
def stackTerms (top : Frame) (rest : List Frame) : List (Nat × Nat) :=
  (rest.reverse.map (fun f => termSpansL f.kids)).flatten ++ termSpansL top.kids

/-- The element tree built from a parse string, before it is flattened into
the node-number to offsets mapping. -/
def parseTree (parse : String) (spans : List (Nat × Nat)) : Except PErr PTree :=
  buildTree spans (tokenize parse.data)

/-! ### Offset propagation: parent bounds versus children

A non-terminal element receives `start` from its first child and `end` from
its last child, except that a leaf handled while the parent already has
children overwrites the parent's `start` with the leaf's own.  The invariant
therefore holds when every leaf token directly follows its node's opening
bracket (as in CoreNLP output, where every terminal is the only child of a
preterminal). -/

/-- Every leaf token directly follows an opening bracket; the flag records
whether the previous token was an opening bracket. -/
def leafFresh : List Tok → Bool → Bool
  | [], _ => true
  | .leaf :: ts, p => p && leafFresh ts false
  | .opn :: ts, _ => leafFresh ts true
  | .cls :: ts, _ => leafFresh ts false

/-- Every leaf of the parse string directly follows its node's opening
bracket. -/
def leavesFresh (ts : List Tok) : Bool := leafFresh ts false

/-- Attributes of the first element of a forest. -/
def headAttrs : List PTree → Option (Nat × Nat)
  | [] => none
  | t :: _ => t.attrs

/-- Attributes of the last element of a forest. -/
def lastAttrs : List PTree → Option (Nat × Nat)
  | [] => none
  | [t] => t.attrs
  | _ :: t :: ts => lastAttrs (t :: ts)

/-- The span a parent should carry according to the propagation rule:
`start` of the first child and `end` of the last child. -/
def boundsOf (ks : List PTree) : Option (Nat × Nat) :=
  match headAttrs ks, lastAttrs ks with
  | some (s, _), some (_, e) => some (s, e)
  | _, _ => none

mutual

/-- Every non-terminal element of the tree carries exactly the bounds of its
children. -/
def agree : PTree → Bool
  | .node _ [] => true
  | .node a (k :: ks) => (a == boundsOf (k :: ks)) && agreeL (k :: ks)

/-- Conjunction of `agree` over a forest. -/
def agreeL : List PTree → Bool
  | [] => true
  | t :: ts => agree t && agreeL ts

end

/-- Invariant of the frames under the freshness condition: the attributes
are exactly the bounds of the children so far, and all completed children
agree. -/
def frameAg (f : Frame) : Prop :=
  f.attrs = boundsOf f.kids ∧ agreeL f.kids = true

/-! ### Idempotence -/

/-- No two `TENTAILS_VAR` relationships share the same endpoint pair. -/
def tentKeysOk (l : List TEdge) : Prop :=
  List.Pairwise (fun a b => ¬(a.src = b.src ∧ a.dst = b.dst)) l

theorem parse_eval_sentence :
    parse_pstree "(S (NP (DT the) (NN cat)) (VP (VBD sat)))" [(0,3),(4,7),(8,11)] =
      .ok [(0,11),(0,11),(0,7),(0,3),(0,3),(4,7),(4,7),(8,11),(8,11),(8,11)] := by
  rfl

theorem parse_eval_unbalanced :
    parse_pstree "(S (NP (DT the))" [(0,3)] = .ok [(0,3),(0,3),(0,3),(0,3)] := by
  rfl

theorem parse_eval_fraction :
    parse_pstree "(CD 8 1/2)" [(0,5)] = .ok [(0,5),(0,5),(0,5)] := by rfl

theorem findSink_mem {g : Graph} {v : Nat} (h : findSink g = some v) :
    v ∈ g.vars :=
  List.mem_of_find?_eq_some h

theorem findCollapseIn_pred {g : Graph} {l : List TEdge} {e1 e2 : TEdge}
    (h : findCollapseIn g l = some (e1, e2)) : collPred g e1 e2 = true := by
  induction l with
  | nil => simp [findCollapseIn] at h
  | cons a es ih =>
    rw [findCollapseIn] at h
    rcases hf : g.tent.find? (fun e2 => collPred g a e2) with _ | e2h
    · rw [hf] at h
      exact ih h
    · rw [hf] at h
      obtain ⟨rfl, rfl⟩ : a = e1 ∧ e2h = e2 := by
        simpa using h
      exact List.find?_some hf

theorem findCollapse_pred {g : Graph} {e1 e2 : TEdge}
    (h : findCollapse g = some (e1, e2)) : collPred g e1 e2 = true :=
  findCollapseIn_pred h

theorem collPred_dst_mem {g : Graph} {e1 e2 : TEdge}
    (h : collPred g e1 e2 = true) : e1.dst ∈ g.vars := by
  simp only [collPred, Bool.and_eq_true] at h
  simpa using h.1.1.1.2

theorem removeNode_vars_lt {g : Graph} {v : Nat} (h : v ∈ g.vars) :
    (removeNode g v).vars.length < g.vars.length := by
  have := List.length_erase_add_one h
  simp only [removeNode]
  omega

theorem pruneLoop_sink (g : Graph) (v : Nat) (h : findSink g = some v) :
    pruneLoop g = pruneLoop (removeNode g v) := by
  rw [pruneLoop.eq_def]
  split
  · rename_i w hw
    rw [h] at hw
    cases hw
    rfl
  · rename_i hw
    rw [h] at hw
    cases hw

theorem pruneLoop_coll (g : Graph) (e1 e2 : TEdge) (h : findSink g = none)
    (hc : findCollapse g = some (e1, e2)) :
    pruneLoop g = pruneLoop (collapseAt g e1 e2) := by
  rw [pruneLoop.eq_def]
  split
  · rename_i w hw
    rw [h] at hw
    cases hw
  · split
    · rename_i p hp
      rw [hc] at hp
      cases hp
      rfl
    · rename_i hp
      rw [hc] at hp
      cases hp

theorem pruneLoop_done (g : Graph) (h : findSink g = none)
    (hc : findCollapse g = none) : pruneLoop g = g := by
  rw [pruneLoop.eq_def]
  split
  · rename_i w hw
    rw [h] at hw
    cases hw
  · split
    · rename_i p hp
      rw [hc] at hp
      cases hp
    · rfl

theorem prune_eval_fixed :
    prune_tentails ⟨[1, 2, 3], [10], [⟨1, 2, none⟩, ⟨2, 3, none⟩], [(10, 3)]⟩ =
      ⟨[1, 2, 3], [10], [⟨1, 2, none⟩, ⟨2, 3, none⟩], [(10, 3)]⟩ :=
  pruneLoop_done ⟨[1, 2, 3], [10], [⟨1, 2, none⟩, ⟨2, 3, none⟩], [(10, 3)]⟩ rfl rfl

theorem prune_eval_chainDrop :
    prune_tentails
        ⟨[1, 2, 3, 4], [10], [⟨1, 2, some "t1"⟩, ⟨2, 3, some "t2"⟩, ⟨3, 4, some "t3"⟩],
          [(10, 1)]⟩ =
      ⟨[1], [10], [], [(10, 1)]⟩ := by
  calc prune_tentails
        ⟨[1, 2, 3, 4], [10], [⟨1, 2, some "t1"⟩, ⟨2, 3, some "t2"⟩, ⟨3, 4, some "t3"⟩],
          [(10, 1)]⟩
      = pruneLoop ⟨[1, 2, 3, 4], [10],
          [⟨1, 2, some "t1"⟩, ⟨2, 3, some "t2"⟩, ⟨3, 4, some "t3"⟩], [(10, 1)]⟩ := rfl
    _ = pruneLoop ⟨[1, 2, 3], [10], [⟨1, 2, some "t1"⟩, ⟨2, 3, some "t2"⟩],
          [(10, 1)]⟩ := pruneLoop_sink _ 4 rfl
    _ = pruneLoop ⟨[1, 2], [10], [⟨1, 2, some "t1"⟩], [(10, 1)]⟩ :=
          pruneLoop_sink _ 3 rfl
    _ = pruneLoop ⟨[1], [10], [], [(10, 1)]⟩ := pruneLoop_sink _ 2 rfl
    _ = ⟨[1], [10], [], [(10, 1)]⟩ := pruneLoop_done _ rfl rfl

theorem prune_eval_collapse :
    prune_tentails
        ⟨[1, 2, 3, 4], [10, 11],
          [⟨1, 2, some "t1"⟩, ⟨2, 3, some "t2"⟩, ⟨3, 4, some "t3"⟩],
          [(10, 1), (11, 4)]⟩ =
      ⟨[1, 4], [10, 11], [⟨1, 4, none⟩], [(10, 1), (11, 4)]⟩ := by
  calc prune_tentails
        ⟨[1, 2, 3, 4], [10, 11],
          [⟨1, 2, some "t1"⟩, ⟨2, 3, some "t2"⟩, ⟨3, 4, some "t3"⟩],
          [(10, 1), (11, 4)]⟩
      = pruneLoop ⟨[1, 2, 3, 4], [10, 11],
          [⟨1, 2, some "t1"⟩, ⟨2, 3, some "t2"⟩, ⟨3, 4, some "t3"⟩],
          [(10, 1), (11, 4)]⟩ := rfl
    _ = pruneLoop ⟨[1, 3, 4], [10, 11], [⟨3, 4, some "t3"⟩, ⟨1, 3, none⟩],
          [(10, 1), (11, 4)]⟩ :=
          pruneLoop_coll _ ⟨1, 2, some "t1"⟩ ⟨2, 3, some "t2"⟩ rfl rfl
    _ = pruneLoop ⟨[1, 4], [10, 11], [⟨1, 4, none⟩], [(10, 1), (11, 4)]⟩ :=
          pruneLoop_coll _ ⟨1, 3, none⟩ ⟨3, 4, some "t3"⟩ rfl rfl
    _ = ⟨[1, 4], [10, 11], [⟨1, 4, none⟩], [(10, 1), (11, 4)]⟩ :=
          pruneLoop_done _ rfl rfl

theorem prune_eval_mergeExisting :
    prune_tentails
        ⟨[1, 2, 4], [10, 11],
          [⟨1, 2, some "t1"⟩, ⟨2, 4, some "t2"⟩, ⟨1, 4, some "x"⟩],
          [(10, 1), (11, 4)]⟩ =
      ⟨[1, 4], [10, 11], [⟨1, 4, some "x"⟩], [(10, 1), (11, 4)]⟩ := by
  calc prune_tentails
        ⟨[1, 2, 4], [10, 11],
          [⟨1, 2, some "t1"⟩, ⟨2, 4, some "t2"⟩, ⟨1, 4, some "x"⟩],
          [(10, 1), (11, 4)]⟩
      = pruneLoop ⟨[1, 2, 4], [10, 11],
          [⟨1, 2, some "t1"⟩, ⟨2, 4, some "t2"⟩, ⟨1, 4, some "x"⟩],
          [(10, 1), (11, 4)]⟩ := rfl
    _ = pruneLoop ⟨[1, 4], [10, 11], [⟨1, 4, some "x"⟩], [(10, 1), (11, 4)]⟩ :=
          pruneLoop_coll _ ⟨1, 2, some "t1"⟩ ⟨2, 4, some "t2"⟩ rfl rfl
    _ = ⟨[1, 4], [10, 11], [⟨1, 4, some "x"⟩], [(10, 1), (11, 4)]⟩ :=
          pruneLoop_done _ rfl rfl

/-! ### Failure behaviour of the offset mapper

`errOf (runFrom ...)` is shown to coincide with the abstract scan `absRun`,
which only tracks the remaining span budget, the emptiness of the current
parent and the depth of the ancestor chain. -/

theorem fullL_append (l1 l2 : List PTree) :
    fullL (l1 ++ l2) = (fullL l1 && fullL l2) := by
  induction l1 with
  | nil => simp [fullL]
  | cons t ts ih => simp [fullL, ih, Bool.and_assoc]

mutual

theorem preorder_all_attrs : ∀ t : PTree, t.full = true →
    (preorder t).all (fun u => u.attrs.isSome) = true
  | .node a ks, h => by
    have h' : a.isSome = true ∧ fullL ks = true := by
      simpa [PTree.full] using h
    simp only [preorder, List.all_cons, PTree.attrs, Bool.and_eq_true]
    exact ⟨h'.1, preorderL_all_attrs ks h'.2⟩

theorem preorderL_all_attrs : ∀ ks : List PTree, fullL ks = true →
    (preorderL ks).all (fun u => u.attrs.isSome) = true
  | [], _ => rfl
  | t :: ts, h => by
    have h' : t.full = true ∧ fullL ts = true := by
      simpa [fullL] using h
    simp only [preorderL, List.all_append, Bool.and_eq_true]
    exact ⟨preorder_all_attrs t h'.1, preorderL_all_attrs ts h'.2⟩

end

theorem attrsList_isSome : ∀ l : List PTree,
    l.all (fun u => u.attrs.isSome) = true → ∃ r, attrsList l = some r
  | [], _ => ⟨[], rfl⟩
  | t :: ts, h => by
    have h' : t.attrs.isSome = true ∧ (List.all ts fun u => u.attrs.isSome) = true := by
      simpa using h
    obtain ⟨r, hr⟩ := attrsList_isSome ts h'.2
    obtain ⟨a, ha⟩ := Option.isSome_iff_exists.mp h'.1
    exact ⟨a :: r, by simp [attrsList, ha, hr]⟩

theorem errOf_spanList_full {t : PTree} (h : t.full = true) :
    errOf (spanList t) = none := by
  obtain ⟨r, hr⟩ := attrsList_isSome _ (preorder_all_attrs t h)
  simp [spanList, hr, errOf]

theorem build_opn (spans : List (Nat × Nat)) (ts : List Tok) (tc : Nat)
    (top : Frame) (rest : List Frame) :
    build spans (.opn :: ts) tc top rest =
      build spans ts tc ⟨none, []⟩ (top :: rest) := rfl

theorem build_cls_nil (spans : List (Nat × Nat)) (ts : List Tok) (tc : Nat)
    (top : Frame) :
    build spans (.cls :: ts) tc top [] = .error .closeNoOpen := rfl

theorem build_cls_err (spans : List (Nat × Nat)) (ts : List Tok) (tc : Nat)
    (top p : Frame) (rest' : List Frame) (h : top.attrs = none) :
    build spans (.cls :: ts) tc top (p :: rest') = .error .noAttr := by
  simp only [build]
  split
  · rename_i s e1 heq1 heq2
    rw [show (PTree.node top.attrs top.kids).attrs = none by simp [PTree.attrs, h]] at heq2
    cases heq2
  · rfl

theorem build_cls_ok (spans : List (Nat × Nat)) (ts : List Tok) (tc : Nat)
    (top p : Frame) (rest' : List Frame) (sa ea s0 e0 : Nat)
    (htop : top.attrs = some (sa, ea))
    (hhead : (p.kids.headD (PTree.node top.attrs top.kids)).attrs = some (s0, e0)) :
    build spans (.cls :: ts) tc top (p :: rest') =
      build spans ts tc ⟨some (s0, ea), p.kids ++ [PTree.node top.attrs top.kids]⟩
        rest' := by
  simp only [build]
  split
  · rename_i s e1 heq1 heq2
    rw [hhead] at heq1
    rw [show (PTree.node top.attrs top.kids).attrs = some (sa, ea) by
      simp [PTree.attrs, htop]] at heq2
    cases heq1
    cases heq2
    rfl
  · rename_i hbad
    exact (hbad s0 e0 sa ea hhead (by simp [PTree.attrs, htop])).elim

theorem build_leaf_err (spans : List (Nat × Nat)) (ts : List Tok) (tc : Nat)
    (top : Frame) (rest : List Frame) (h : spans.get? tc = none) :
    build spans (.leaf :: ts) tc top rest = .error .tokGone := by
  simp only [build, h]

theorem build_leaf_ok (spans : List (Nat × Nat)) (ts : List Tok) (tc : Nat)
    (top : Frame) (rest : List Frame) (s e : Nat) (h : spans.get? tc = some (s, e)) :
    build spans (.leaf :: ts) tc top rest =
      build spans ts (tc + 1)
        ⟨some (s, e), top.kids ++ [PTree.node (some (s, e)) []]⟩ rest := by
  simp only [build, h]

theorem runFrom_eq_of_build (spans : List (Nat × Nat)) {ts1 ts2 : List Tok}
    {tc1 tc2 : Nat} {top1 top2 : Frame} {rest1 rest2 : List Frame}
    (h : build spans ts1 tc1 top1 rest1 = build spans ts2 tc2 top2 rest2) :
    runFrom spans ts1 tc1 top1 rest1 = runFrom spans ts2 tc2 top2 rest2 := by
  simp only [runFrom, h]

theorem runFrom_err (spans : List (Nat × Nat)) {ts : List Tok} {tc : Nat}
    {top : Frame} {rest : List Frame} {e : PErr}
    (h : build spans ts tc top rest = .error e) :
    runFrom spans ts tc top rest = .error e := by
  simp only [runFrom, h]

theorem frameOk_some {f : Frame} (h : frameOk f) (hk : ¬f.kids.isEmpty = true) :
    ∃ sa ea, f.attrs = some (sa, ea) := by
  obtain ⟨h1, _⟩ := h
  rw [Bool.not_eq_true] at hk
  rw [hk] at h1
  simp only [Bool.not_false] at h1
  rcases hf : f.attrs with _ | ⟨sa, ea⟩
  · rw [hf] at h1
    cases h1
  · exact ⟨sa, ea, rfl⟩

theorem errOf_runFrom (spans : List (Nat × Nat)) :
    ∀ (ts : List Tok) (tc : Nat) (top : Frame) (rest : List Frame),
      frameOk top → (∀ f ∈ rest, frameOk f) →
      errOf (runFrom spans ts tc top rest) =
        absRun ts (spans.length - tc) top.kids.isEmpty rest.length := by
  intro ts
  induction ts with
  | nil =>
    intro tc top rest htop _
    obtain ⟨a, ks⟩ := top
    obtain ⟨h1, h2⟩ := htop
    rcases ks with _ | ⟨k, ks⟩
    · have ha : a = none := by
        cases a
        · rfl
        · simp [Frame.attrs, Frame.kids] at h1
      subst ha
      simp [runFrom, build, spanList, preorder, preorderL, attrsList, PTree.attrs,
        absRun, errOf, Frame.kids]
    · have hfull : (PTree.node a (k :: ks)).full = true := by
        simp only [Frame.attrs, Frame.kids, List.isEmpty_cons, Bool.not_false] at h1
        simp [PTree.full, h1, h2]
      have hnone := errOf_spanList_full hfull
      have hrun : runFrom spans [] tc ⟨a, k :: ks⟩ rest =
          spanList (PTree.node a (k :: ks)) := by
        simp only [runFrom, build]
      rw [hrun]
      simpa [absRun, Frame.kids] using hnone
  | cons t ts ih =>
    intro tc top rest htop hrest
    cases t with
    | opn =>
      rw [runFrom_eq_of_build spans (build_opn spans ts tc top rest),
        ih tc ⟨none, []⟩ (top :: rest) (by constructor <;> rfl)
        (by
          intro f hf
          rcases List.mem_cons.mp hf with rfl | hf
          · exact htop
          · exact hrest f hf)]
      simp [absRun, Frame.kids]
    | cls =>
      rcases rest with _ | ⟨p, rest'⟩
      · rw [runFrom_err spans (build_cls_nil spans ts tc top)]
        simp [absRun, errOf]
      · by_cases hk : top.kids.isEmpty = true
        · have ha : top.attrs = none := by
            obtain ⟨h1, _⟩ := htop
            rw [hk] at h1
            simpa using h1
          rw [runFrom_err spans (build_cls_err spans ts tc top p rest' ha)]
          simp [absRun, errOf, hk]
        · obtain ⟨sa, ea, ha⟩ := frameOk_some htop hk
          have hp := hrest p (by simp)
          have hhead : ∃ s0 e0,
              (p.kids.headD (PTree.node top.attrs top.kids)).attrs = some (s0, e0) := by
            rcases hpk : p.kids with _ | ⟨q, qs⟩
            · exact ⟨sa, ea, by simp [List.headD, PTree.attrs, ha]⟩
            · have hqfull : q.full = true := by
                have := hp.2
                rw [hpk] at this
                have h3 : q.full = true ∧ fullL qs = true := by simpa [fullL] using this
                exact h3.1
              obtain ⟨qa, qks⟩ := q
              have hsome : qa.isSome = true := by
                have h4 : qa.isSome = true ∧ fullL qks = true := by
                  simpa [PTree.full] using hqfull
                exact h4.1
              obtain ⟨⟨s0, e0⟩, hqa⟩ := Option.isSome_iff_exists.mp hsome
              exact ⟨s0, e0, by simp [List.headD, PTree.attrs, hqa]⟩
          obtain ⟨s0, e0, hhead⟩ := hhead
          rw [runFrom_eq_of_build spans
            (build_cls_ok spans ts tc top p rest' sa ea s0 e0 ha hhead)]
          rw [ih tc _ rest'
            (by
              refine ⟨by simp [Frame.attrs, Frame.kids], ?_⟩
              show fullL (p.kids ++ [PTree.node top.attrs top.kids]) = true
              rw [fullL_append]
              simp only [Bool.and_eq_true]
              refine ⟨hp.2, ?_⟩
              simp [fullL, PTree.full, ha, htop.2])
            (fun f hf => hrest f (by simp [hf]))]
          have hd : (p :: rest').length = rest'.length + 1 := rfl
          rw [hd]
          simp only [absRun, Frame.kids]
          rw [show (p.kids ++ [PTree.node top.attrs top.kids]).isEmpty = false by
            cases p.kids <;> rfl]
          rw [if_neg hk]
    | leaf =>
      rcases hg : spans.get? tc with _ | ⟨s, e⟩
      · have hr0 : spans.length - tc = 0 := by
          have := List.get?_eq_none.mp hg
          omega
        rw [runFrom_err spans (build_leaf_err spans ts tc top rest hg), hr0]
        simp [absRun, errOf]
      · have hlt : tc < spans.length := by
          by_contra hcon
          rw [List.get?_eq_none.mpr (by omega)] at hg
          cases hg
        have hr : spans.length - tc = (spans.length - (tc + 1)) + 1 := by omega
        rw [runFrom_eq_of_build spans (build_leaf_ok spans ts tc top rest s e hg)]
        rw [ih (tc + 1) _ rest
          (by
            refine ⟨by simp [Frame.attrs, Frame.kids], ?_⟩
            show fullL (top.kids ++ [PTree.node (some (s, e)) []]) = true
            rw [fullL_append]
            simp [fullL, PTree.full, htop.2])
          hrest, hr]
        simp only [absRun, Frame.kids]
        rw [show (top.kids ++ [PTree.node (some (s, e)) []]).isEmpty = false by
          cases top.kids <;> rfl]

theorem endBad_cons2 (t t' : Tok) (ts : List Tok) (te : Bool) :
    endBad (t :: t' :: ts) te = endBad (t' :: ts) te := by
  cases t <;> rfl

theorem endBad_congr : ∀ (t : Tok) (ts : List Tok) (te te' : Bool),
    endBad (t :: ts) te = endBad (t :: ts) te'
  | t, [], _, _ => by cases t <;> rfl
  | t, t' :: ts, te, te' => by
    rw [endBad_cons2, endBad_cons2]
    exact endBad_congr t' ts te te'

theorem emptyPair_opn (ts : List Tok) :
    emptyPair (.opn :: ts) = (hdCls ts || emptyPair ts) := by
  cases ts with
  | nil => rfl
  | cons t ts => cases t <;> rfl

theorem emptyPair_cls (ts : List Tok) : emptyPair (.cls :: ts) = emptyPair ts := by
  cases ts with
  | nil => rfl
  | cons t ts => cases t <;> rfl

theorem emptyPair_leaf (ts : List Tok) : emptyPair (.leaf :: ts) = emptyPair ts := by
  cases ts with
  | nil => rfl
  | cons t ts => cases t <;> rfl

theorem scanOk_opn (ts : List Tok) (r : Nat) (te : Bool) (d : Nat) :
    scanOk (.opn :: ts) r te d ↔ scanOk ts r true (d + 1) := by
  simp only [scanOk, emptyPair_opn]
  constructor
  · rintro ⟨hc, hl, -, he, hb⟩
    have he2 : hdCls ts = false ∧ emptyPair ts = false := by
      simpa using he
    refine ⟨hc, hl, fun _ => he2.1, he2.2, ?_⟩
    cases ts with
    | nil => simp [endBad] at hb
    | cons t' ts' =>
      rw [show endBad (.opn :: t' :: ts') te = endBad (t' :: ts') te from rfl] at hb
      rw [← endBad_congr t' ts' te true]
      exact hb
  · rintro ⟨hc, hl, hh, he, hb⟩
    have hh' : hdCls ts = false := hh (by simp)
    refine ⟨hc, hl, fun _ => rfl, by simp [hh', he], ?_⟩
    cases ts with
    | nil => simp [endBad] at hb
    | cons t' ts' =>
      rw [endBad_cons2, endBad_congr t' ts' te true]
      exact hb

theorem scanOk_cls_drop (ts : List Tok) (r : Nat) (te : Bool) :
    ¬scanOk (.cls :: ts) r te 0 := by
  rintro ⟨hc, -, -, -, -⟩
  simp [closeDrop] at hc

theorem scanOk_cls_te (ts : List Tok) (r : Nat) (d : Nat) :
    ¬scanOk (.cls :: ts) r true d := by
  rintro ⟨-, -, hh, -, -⟩
  simp [hdCls] at hh

theorem scanOk_cls (ts : List Tok) (r : Nat) (d : Nat) :
    scanOk (.cls :: ts) r false (d + 1) ↔ scanOk ts r false d := by
  simp only [scanOk, emptyPair_cls]
  constructor
  · rintro ⟨hc, hl, -, he, hb⟩
    refine ⟨hc, hl, by simp, he, ?_⟩
    cases ts with
    | nil => rfl
    | cons t' ts' => exact hb
  · rintro ⟨hc, hl, -, he, hb⟩
    refine ⟨hc, hl, by simp, he, ?_⟩
    cases ts with
    | nil => rfl
    | cons t' ts' => exact hb

theorem scanOk_leaf_gone (ts : List Tok) (te : Bool) (d : Nat) :
    ¬scanOk (.leaf :: ts) 0 te d := by
  rintro ⟨-, hl, -, -, -⟩
  simp [leafCount] at hl

theorem scanOk_leaf (ts : List Tok) (r : Nat) (te : Bool) (d : Nat) :
    scanOk (.leaf :: ts) (r + 1) te d ↔ scanOk ts r false d := by
  simp only [scanOk, emptyPair_leaf]
  constructor
  · rintro ⟨hc, hl, -, he, hb⟩
    refine ⟨hc, by simp [leafCount] at hl; omega, by simp, he, ?_⟩
    cases ts with
    | nil => rfl
    | cons t' ts' =>
      rw [endBad_cons2] at hb
      rw [endBad_congr t' ts' false te]
      exact hb
  · rintro ⟨hc, hl, -, he, hb⟩
    refine ⟨hc, by simp [leafCount]; omega, fun _ => rfl, he, ?_⟩
    cases ts with
    | nil => cases te <;> rfl
    | cons t' ts' =>
      rw [endBad_cons2, endBad_congr t' ts' te false]
      exact hb

/-- Success characterisation of the abstract scan: it raises no error
exactly when the combinatorial conditions `scanOk` hold. -/
theorem absRun_none_iff :
    ∀ (ts : List Tok) (r : Nat) (te : Bool) (d : Nat),
      absRun ts r te d = none ↔ scanOk ts r te d := by
  intro ts
  induction ts with
  | nil =>
    intro r te d
    cases te <;>
      simp [absRun, scanOk, closeDrop, leafCount, hdCls, emptyPair, endBad]
  | cons t ts ih =>
    intro r te d
    cases t with
    | opn =>
      rw [show absRun (.opn :: ts) r te d = absRun ts r true (d + 1) from rfl,
        scanOk_opn]
      exact ih r true (d + 1)
    | cls =>
      cases d with
      | zero =>
        rw [show absRun (.cls :: ts) r te 0 = some .closeNoOpen from rfl]
        simp only [iff_false_intro (scanOk_cls_drop ts r te)]
        simp
      | succ d =>
        cases te with
        | true =>
          rw [show absRun (.cls :: ts) r true (d + 1) = some .noAttr from rfl]
          simp only [iff_false_intro (scanOk_cls_te ts r (d + 1))]
          simp
        | false =>
          rw [show absRun (.cls :: ts) r false (d + 1) = absRun ts r false d from rfl,
            scanOk_cls]
          exact ih r false d
    | leaf =>
      cases r with
      | zero =>
        rw [show absRun (.leaf :: ts) 0 te d = some .tokGone from rfl]
        simp only [iff_false_intro (scanOk_leaf_gone ts te d)]
        simp
      | succ r =>
        rw [show absRun (.leaf :: ts) (r + 1) te d = absRun ts r false d from rfl,
          scanOk_leaf]
        exact ih r false d

/-- When the bracket structure raises no error but the leaves outnumber the
spans, the abstract scan raises exactly the token-exhaustion error. -/
theorem absRun_tokGone :
    ∀ (ts : List Tok) (r : Nat) (te : Bool) (d : Nat),
      closeDrop ts d = false → (te = true → hdCls ts = false) →
      emptyPair ts = false → r < leafCount ts →
      absRun ts r te d = some .tokGone := by
  intro ts
  induction ts with
  | nil =>
    intro r te d _ _ _ hl
    simp [leafCount] at hl
  | cons t ts ih =>
    intro r te d hc hh he hl
    cases t with
    | opn =>
      rw [show absRun (.opn :: ts) r te d = absRun ts r true (d + 1) from rfl]
      have he2 : hdCls ts = false ∧ emptyPair ts = false := by
        rw [emptyPair_opn] at he
        simpa using he
      exact ih r true (d + 1) hc (fun _ => he2.1) he2.2 hl
    | cls =>
      cases d with
      | zero => simp [closeDrop] at hc
      | succ d =>
        cases te with
        | true => simp [hdCls] at hh
        | false =>
          rw [show absRun (.cls :: ts) r false (d + 1) = absRun ts r false d from rfl]
          rw [emptyPair_cls] at he
          exact ih r false d hc (by simp) he hl
    | leaf =>
      cases r with
      | zero => rfl
      | succ r =>
        rw [show absRun (.leaf :: ts) (r + 1) te d = absRun ts r false d from rfl]
        rw [emptyPair_leaf] at he
        exact ih r false d hc (by simp) he (by simp [leafCount] at hl; omega)

theorem parseToks_eq_runFrom (spans : List (Nat × Nat)) (ts : List Tok) :
    parseToks spans ts = runFrom spans ts 0 ⟨none, []⟩ [] := by
  rcases hb : build spans ts 0 ⟨none, []⟩ [] with e | t <;>
    simp [parseToks, buildTree, runFrom, hb, spanList]

/-- The error raised by `parse_pstree`, if any, equals the abstract scan of
the token sequence. -/
theorem errOf_parse_pstree (parse : String) (spans : List (Nat × Nat)) :
    errOf (parse_pstree parse spans) =
      absRun (tokenize parse.data) spans.length true 0 := by
  have h := errOf_runFrom spans (tokenize parse.data) 0 ⟨none, []⟩ []
    (by constructor <;> rfl) (by intro f hf; cases hf)
  rw [parse_pstree, parseToks_eq_runFrom]
  simpa using h

theorem errOf_eq_none_iff {r : Except PErr (List (Nat × Nat))} :
    errOf r = none ↔ r.isOk = true := by
  cases r <;> simp [errOf, Except.isOk, Except.toBool]

theorem errOf_eq_some {r : Except PErr (List (Nat × Nat))} {e : PErr}
    (h : errOf r = some e) : r = .error e := by
  cases r with
  | error e1 =>
    simp only [errOf] at h
    cases h
    rfl
  | ok l => simp [errOf] at h

theorem closeDrop_hdCls {ts : List Tok} (h : closeDrop ts 0 = false) :
    hdCls ts = false := by
  cases ts with
  | nil => rfl
  | cons t ts => cases t <;> first | rfl | simp [closeDrop] at h

/-- A parse fails exactly when a close has no matching open, a node closes
with zero children, the string ends inside a freshly opened node (or is
empty of tokens), or the leaves outnumber the supplied spans. -/
theorem parse_fails_iff (parse : String) (spans : List (Nat × Nat)) :
    (parse_pstree parse spans).isOk = false ↔
      (closeDrop (tokenize parse.data) 0 = true ∨
        emptyPair (tokenize parse.data) = true ∨
        endBad (tokenize parse.data) true = true ∨
        spans.length < leafCount (tokenize parse.data)) := by
  have hiff : (parse_pstree parse spans).isOk = true ↔
      scanOk (tokenize parse.data) spans.length true 0 := by
    rw [← errOf_eq_none_iff, errOf_parse_pstree]
    exact absRun_none_iff _ _ _ _
  constructor
  · intro h
    by_contra hcon
    push_neg at hcon
    obtain ⟨h1, h2, h3, h4⟩ := hcon
    replace h1 := Bool.eq_false_iff.mpr h1
    replace h2 := Bool.eq_false_iff.mpr h2
    replace h3 := Bool.eq_false_iff.mpr h3
    have : (parse_pstree parse spans).isOk = true := by
      rw [hiff]
      exact ⟨h1, by omega, fun _ => closeDrop_hdCls h1, h2, h3⟩
    rw [this] at h
    cases h
  · intro h
    cases hok : (parse_pstree parse spans).isOk
    · rfl
    · exfalso
      obtain ⟨h1, h2, h3, h4, h5⟩ := hiff.mp hok
      rcases h with h | h | h | h
      · rw [h1] at h
        cases h
      · rw [h4] at h
        cases h
      · rw [h5] at h
        cases h
      · omega

theorem build_cls_errHead (spans : List (Nat × Nat)) (ts : List Tok) (tc : Nat)
    (top p : Frame) (rest' : List Frame)
    (hhead : (p.kids.headD (PTree.node top.attrs top.kids)).attrs = none) :
    build spans (.cls :: ts) tc top (p :: rest') = .error .noAttr := by
  simp only [build]
  split
  · rename_i s e1 heq1 heq2
    rw [hhead] at heq1
    cases heq1
  · rfl

/-- Extending the span sequence beyond what the leaves consume does not
change the scan. -/
theorem build_spans_extend (sp1 sp2 : List (Nat × Nat)) :
    ∀ (ts : List Tok) (tc : Nat) (top : Frame) (rest : List Frame),
      tc + leafCount ts ≤ sp1.length →
      build (sp1 ++ sp2) ts tc top rest = build sp1 ts tc top rest := by
  intro ts
  induction ts with
  | nil => intro tc top rest _; rfl
  | cons t ts ih =>
    intro tc top rest hle
    cases t with
    | opn =>
      rw [build_opn, build_opn]
      exact ih tc _ _ (by simpa [leafCount] using hle)
    | cls =>
      rcases rest with _ | ⟨p, rest'⟩
      · rw [build_cls_nil, build_cls_nil]
      · rcases hta : top.attrs with _ | ⟨sa, ea⟩
        · rw [build_cls_err _ _ _ _ _ _ hta, build_cls_err _ _ _ _ _ _ hta]
        · rcases hhd : (p.kids.headD (PTree.node top.attrs top.kids)).attrs
            with _ | ⟨s0, e0⟩
          · rw [build_cls_errHead _ _ _ _ _ _ hhd, build_cls_errHead _ _ _ _ _ _ hhd]
          · rw [build_cls_ok _ _ _ _ _ _ sa ea s0 e0 hta hhd,
              build_cls_ok _ _ _ _ _ _ sa ea s0 e0 hta hhd]
            exact ih tc _ _ (by simpa [leafCount] using hle)
    | leaf =>
      have hlt : tc < sp1.length := by
        simp only [leafCount] at hle
        omega
      rcases hg : sp1.get? tc with _ | ⟨s, e⟩
      · exfalso
        have := List.get?_eq_none.mp hg
        omega
      · have hg2 : (sp1 ++ sp2).get? tc = some (s, e) := by
          rw [List.get?_append hlt]
          exact hg
        rw [build_leaf_ok _ _ _ _ _ _ _ hg2, build_leaf_ok _ _ _ _ _ _ _ hg]
        exact ih (tc + 1) _ _ (by simp only [leafCount] at hle ⊢; omega)

theorem parse_pstree_extend (parse : String) (sp1 sp2 : List (Nat × Nat))
    (h : leafCount (tokenize parse.data) ≤ sp1.length) :
    parse_pstree parse (sp1 ++ sp2) = parse_pstree parse sp1 := by
  have hb := build_spans_extend sp1 sp2 (tokenize parse.data) 0 ⟨none, []⟩ []
    (by simpa using h)
  simp only [parse_pstree, parseToks, buildTree, hb]

mutual

theorem preorder_length : ∀ t : PTree, (preorder t).length = nElems t
  | .node a ks => by
    simp only [preorder, List.length_cons, nElems]
    rw [preorderL_length ks]
    omega

theorem preorderL_length : ∀ ks : List PTree, (preorderL ks).length = nElemsL ks
  | [] => rfl
  | t :: ts => by
    simp only [preorderL, List.length_append, nElemsL]
    rw [preorder_length t, preorderL_length ts]

end

theorem nElemsL_append (l1 l2 : List PTree) :
    nElemsL (l1 ++ l2) = nElemsL l1 + nElemsL l2 := by
  induction l1 with
  | nil => simp [nElemsL]
  | cons t ts ih =>
    simp only [List.cons_append, nElemsL, List.append_eq]
    rw [ih]
    omega

/-- Conservation of elements: when the bracket structure is balanced
relative to the current chain, the element the scan ends on holds exactly
the elements of the current chain plus one element per opening bracket and
per leaf. -/
theorem build_count (spans : List (Nat × Nat)) :
    ∀ (ts : List Tok) (tc : Nat) (top : Frame) (rest : List Frame) (t : Frame),
      balanced ts rest.length = true →
      build spans ts tc top rest = .ok t →
      1 + nElemsL t.kids = stackElems top rest + opnCount ts + leafCount ts := by
  intro ts
  induction ts with
  | nil =>
    intro tc top rest t hbal hok
    have hrest : rest = [] := by
      cases rest with
      | nil => rfl
      | cons p rest' => simp [balanced] at hbal
    subst hrest
    cases hok
    simp [stackElems, opnCount, leafCount]
  | cons tok ts ih =>
    intro tc top rest t hbal hok
    cases tok with
    | opn =>
      rw [build_opn] at hok
      have hbal' : balanced ts (top :: rest).length = true := by
        simpa [balanced, List.length_cons] using hbal
      have := ih tc ⟨none, []⟩ (top :: rest) t hbal' hok
      rw [this]
      simp only [stackElems, Frame.kids, nElemsL, List.map_cons, List.sum_cons,
        opnCount, leafCount]
      omega
    | cls =>
      rcases rest with _ | ⟨p, rest'⟩
      · simp [balanced] at hbal
      · rcases hta : top.attrs with _ | ⟨sa, ea⟩
        · rw [build_cls_err _ _ _ _ _ _ hta] at hok
          cases hok
        · rcases hhd : (p.kids.headD (PTree.node top.attrs top.kids)).attrs
            with _ | ⟨s0, e0⟩
          · rw [build_cls_errHead _ _ _ _ _ _ hhd] at hok
            cases hok
          · rw [build_cls_ok _ _ _ _ _ _ sa ea s0 e0 hta hhd] at hok
            have hbal' : balanced ts rest'.length = true := by
              simpa [balanced, List.length_cons] using hbal
            have := ih tc _ rest' t hbal' hok
            rw [this]
            simp only [stackElems, Frame.kids, nElemsL, List.map_cons,
              List.sum_cons, opnCount, leafCount, nElemsL_append, nElems]
            omega
    | leaf =>
      rcases hg : spans.get? tc with _ | ⟨s, e⟩
      · rw [build_leaf_err _ _ _ _ _ hg] at hok
        cases hok
      · rw [build_leaf_ok _ _ _ _ _ _ _ hg] at hok
        have hbal' : balanced ts rest.length = true := by
          simpa [balanced] using hbal
        have := ih (tc + 1) _ rest t hbal' hok
        rw [this]
        simp only [stackElems, Frame.kids, nElemsL_append, nElemsL, nElems,
          opnCount, leafCount]
        omega

theorem attrsList_length : ∀ (l : List PTree) (r : List (Nat × Nat)),
    attrsList l = some r → r.length = l.length
  | [], r, h => by
    simp only [attrsList] at h
    cases h
    rfl
  | t :: ts, r, h => by
    simp only [attrsList] at h
    rcases ha : t.attrs with _ | a <;> rw [ha] at h
    · cases h
    · rcases hr : attrsList ts with _ | r' <;> rw [hr] at h
      · cases h
      · cases h
        simp only [List.length_cons]
        rw [attrsList_length ts r' hr]

/-- Number of opening-bracket tokens produced by the scan equals the number
of `(` characters of the input, whatever the scan state. -/
theorem opnCount_scanTok : ∀ (cs : List Char) (st : ScanSt),
    opnCount (scanTok st cs) = cs.count '(' := by
  intro cs
  induction cs with
  | nil => intro st; cases st <;> rfl
  | cons c cs ih =>
    intro st
    have hcnt : (c :: cs).count '(' = cs.count '(' + (if c = '(' then 1 else 0) := by
      simp [List.count_cons]
    rw [hcnt]
    by_cases h1 : c = '('
    · subst h1
      cases st <;> simp [scanTok, opnCount, ih]
    · by_cases h2 : c = ')'
      · subst h2
        cases st <;> simp [scanTok, opnCount, ih, if_neg h1]
      · by_cases h3 : isWs c = true
        · cases st <;>
            simp [scanTok, opnCount, ih, if_neg h1, if_neg h2, h3]
        · rw [Bool.not_eq_true] at h3
          cases st <;>
            simp [scanTok, opnCount, ih, if_neg h1, if_neg h2, h3]

/-! ### Leaf tokenization lemmas -/

theorem scanTok_leafTxt_skip :
    ∀ (cs rest : List Char), (∀ d ∈ cs, isBr d = false) →
      scanTok .leafTxt (cs ++ rest) = scanTok .leafTxt rest := by
  intro cs
  induction cs with
  | nil => intro rest _; rfl
  | cons d cs ih =>
    intro rest hbr
    have hd : isBr d = false := hbr d (by simp)
    have hd1 : ¬d = '(' := by
      intro h
      rw [h] at hd
      simp [isBr] at hd
    have hd2 : ¬d = ')' := by
      intro h
      rw [h] at hd
      simp [isBr] at hd
    rw [List.cons_append, show scanTok .leafTxt (d :: (cs ++ rest)) =
      scanTok .leafTxt (cs ++ rest) by simp [scanTok, if_neg hd1, if_neg hd2]]
    exact ih rest (fun d hd => hbr d (by simp [hd]))

theorem scanTok_leafTxt_norm (rest : List Char)
    (hrest : rest = [] ∨ rest.head? = some '(' ∨ rest.head? = some ')') :
    scanTok .leafTxt rest = scanTok .norm rest := by
  rcases hrest with rfl | h | h
  · rfl
  · cases rest with
    | nil => cases h
    | cons c r =>
      have : c = '(' := by simpa using h
      subst this
      rfl
  · cases rest with
    | nil => cases h
    | cons c r =>
      have : c = ')' := by simpa using h
      subst this
      rfl

/-! ### Claim theorems for the offset mapper (counts and failures) -/

/-- C1 (counterexample): on the scenario parse string the mapping has one
entry per element of the built lxml tree — the artificial `__ROOT__`
wrapper, one element per `(`, and one terminal element per leaf token — so
10 entries rather than one per `(` symbol (6). -/
theorem claim_C1_cex :
    parse_pstree "(S (NP (DT the) (NN cat)) (VP (VBD sat)))" [(0,3),(4,7),(8,11)] =
      .ok [(0,11),(0,11),(0,7),(0,3),(0,3),(4,7),(4,7),(8,11),(8,11),(8,11)] ∧
    "(S (NP (DT the) (NN cat)) (VP (VBD sat)))".data.count '(' = 6 ∧
    ¬(([(0,11),(0,11),(0,7),(0,3),(0,3),(4,7),(4,7),(8,11),(8,11),(8,11)] :
        List (Nat × Nat)).length = 6) :=
  ⟨rfl, by decide, by decide⟩

/-- C1 (amended): for a balanced parse string on which `parse_pstree`
returns a mapping, the mapping has `1 + (number of '(' symbols) + (number of
leaf tokens)` entries: one per `(`, one per leaf token (terminal elements
are enumerated too), plus one for the artificial `__ROOT__` wrapper, which
receives index 0; the keys are the sequential positions `0..N-1` of the
document-order (pre-order) enumeration, the tree's root receiving index 1. -/
theorem claim_C1 (parse : String) (spans : List (Nat × Nat))
    (m : List (Nat × Nat))
    (hok : parse_pstree parse spans = .ok m)
    (hbal : balanced (tokenize parse.data) 0 = true) :
    m.length = 1 + parse.data.count '(' + leafCount (tokenize parse.data) := by
  rcases hb : build spans (tokenize parse.data) 0 ⟨none, []⟩ [] with e | t
  · rw [parse_pstree, parseToks, buildTree, hb] at hok
    cases hok
  · rw [parse_pstree, parseToks, buildTree, hb] at hok
    simp only [spanList] at hok
    rcases ha : attrsList (preorder (PTree.node t.attrs t.kids)) with _ | r <;>
      rw [ha] at hok
    · cases hok
    · cases hok
      have hlen := attrsList_length _ _ ha
      rw [hlen, preorder_length]
      have hcount := build_count spans (tokenize parse.data) 0 ⟨none, []⟩ [] t
        (by simpa using hbal) hb
      have : nElems (PTree.node t.attrs t.kids) = 1 + nElemsL t.kids := rfl
      rw [this, hcount]
      have : opnCount (tokenize parse.data) = parse.data.count '(' :=
        opnCount_scanTok parse.data .norm
      rw [this]
      simp [stackElems, nElemsL, Frame.kids]

/-- C1 (witness): the scenario mapping has 10 = 1 + 6 + 3 entries. -/
theorem claim_C1_witness :
    ([(0,11),(0,11),(0,7),(0,3),(0,3),(4,7),(4,7),(8,11),(8,11),(8,11)] :
        List (Nat × Nat)).length =
      1 + "(S (NP (DT the) (NN cat)) (VP (VBD sat)))".data.count '(' +
        leafCount (tokenize "(S (NP (DT the) (NN cat)) (VP (VBD sat)))".data) :=
  claim_C1 "(S (NP (DT the) (NN cat)) (VP (VBD sat)))" [(0,3),(4,7),(8,11)]
    [(0,11),(0,11),(0,7),(0,3),(0,3),(4,7),(4,7),(8,11),(8,11),(8,11)]
    rfl (by decide)

/-- C4 (counterexample): on the unbalanced scenario string
`"(S (NP (DT the))"` the code does not fail: the two closes complete `DT`
and `NP`, the scan ends with `parent` resting on the still-open `S` element,
and the returned mapping covers that subtree (4 elements). -/
theorem claim_C4_cex :
    parse_pstree "(S (NP (DT the))" [(0,3)] = .ok [(0,3),(0,3),(0,3),(0,3)] := rfl

/-- C4 (amended): `parse_pstree` fails exactly when a close bracket has no
matching open, a node closes with zero children (an open bracket directly
followed by a close), the scan ends directly inside a just-opened node
(including the no-token case), or the leaves outnumber the supplied token
spans.  Unmatched open brackets alone — as in `"(S (NP (DT the))"` — do not
cause a failure; the mapping of the innermost still-open subtree is
returned. -/
theorem claim_C4 (parse : String) (spans : List (Nat × Nat)) :
    (parse_pstree parse spans).isOk = false ↔
      (closeDrop (tokenize parse.data) 0 = true ∨
        emptyPair (tokenize parse.data) = true ∨
        endBad (tokenize parse.data) true = true ∨
        spans.length < leafCount (tokenize parse.data)) :=
  parse_fails_iff parse spans

/-- C7 (counterexample): on `"() x"` with no spans the leaves outnumber the
spans, yet the failure is the empty-node `TypeError` (the node opened by `(`
closes with zero children before the leaf is ever scanned), not the
token-exhaustion `IndexError`. -/
theorem claim_C7_cex :
    parse_pstree "() x" [] = .error .noAttr ∧
    ([] : List (Nat × Nat)).length < leafCount (tokenize "() x".data) ∧
    PErr.noAttr ≠ PErr.tokGone :=
  ⟨rfl, by decide, by decide⟩

/-- C7 (amended): if the bracket structure of the parse string raises no
error of its
own and the parse string has more leaf tokens than there are token spans,
`parse_pstree` fails with the token-exhaustion error (`IndexError` on
`tokens_elem[token_count]`); and when the spans suffice, trailing unconsumed
spans are silently ignored: the result equals the one computed from the
consumed prefix of the spans. -/
theorem claim_C7 (parse : String) (spans : List (Nat × Nat)) :
    (closeDrop (tokenize parse.data) 0 = false →
      emptyPair (tokenize parse.data) = false →
      spans.length < leafCount (tokenize parse.data) →
      parse_pstree parse spans = .error .tokGone) ∧
    (leafCount (tokenize parse.data) ≤ spans.length →
      parse_pstree parse spans =
        parse_pstree parse (spans.take (leafCount (tokenize parse.data)))) := by
  constructor
  · intro hc he hl
    apply errOf_eq_some
    rw [errOf_parse_pstree]
    exact absRun_tokGone _ _ _ _ hc (fun _ => closeDrop_hdCls hc) he hl
  · intro hle
    have h := parse_pstree_extend parse
      (spans.take (leafCount (tokenize parse.data)))
      (spans.drop (leafCount (tokenize parse.data)))
      (by rw [List.length_take]; omega)
    rw [List.take_append_drop] at h
    exact h

/-- C7 (witness): with two spans for three leaves the scenario string fails
with token exhaustion; with one excess span the result is that of the
consumed three-span prefix. -/
theorem claim_C7_witness :
    parse_pstree "(S (NP (DT the) (NN cat)) (VP (VBD sat)))" [(0,3),(4,7)] =
      .error .tokGone ∧
    parse_pstree "(S (NP (DT the) (NN cat)) (VP (VBD sat)))"
        [(0,3),(4,7),(8,11),(99,100)] =
      parse_pstree "(S (NP (DT the) (NN cat)) (VP (VBD sat)))" [(0,3),(4,7),(8,11)] :=
  ⟨(claim_C7 "(S (NP (DT the) (NN cat)) (VP (VBD sat)))" [(0,3),(4,7)]).1
      (by decide) (by decide) (by decide),
    ((claim_C7 "(S (NP (DT the) (NN cat)) (VP (VBD sat)))"
        [(0,3),(4,7),(8,11),(99,100)]).2 (by decide)).trans (by rfl)⟩

/-- C9: a leaf match starts at a non-space non-bracket character and extends
greedily over any non-bracket characters (whitespace included) up to the
next bracket, so a whitespace-separated run of words at a leaf position is
one leaf token; on `"(CD 8 1/2)"` the text `8 1/2` is a single leaf
consuming a single token span and creating a single terminal element, and
two whitespace-separated sibling words as in `"(NN foo bar)"` are likewise
merged into one leaf. -/
theorem claim_C9 (c : Char) (cs rest : List Char)
    (hw : isWs c = false) (hb : isBr c = false)
    (hcs : ∀ d ∈ cs, isBr d = false)
    (hrest : rest = [] ∨ rest.head? = some '(' ∨ rest.head? = some ')') :
    scanTok .norm (c :: (cs ++ rest)) = Tok.leaf :: scanTok .norm rest ∧
    parse_pstree "(CD 8 1/2)" [(0,5)] = .ok [(0,5),(0,5),(0,5)] ∧
    parse_pstree "(NN foo bar)" [(0,7)] = .ok [(0,7),(0,7),(0,7)] := by
  refine ⟨?_, rfl, rfl⟩
  have hb1 : ¬c = '(' := by
    intro h
    rw [h] at hb
    simp [isBr] at hb
  have hb2 : ¬c = ')' := by
    intro h
    rw [h] at hb
    simp [isBr] at hb
  rw [show scanTok .norm (c :: (cs ++ rest)) =
      Tok.leaf :: scanTok .leafTxt (cs ++ rest) by
    simp [scanTok, if_neg hb1, if_neg hb2, hw]]
  rw [scanTok_leafTxt_skip cs rest hcs, scanTok_leafTxt_norm rest hrest]

/-- C9 (witness): in `"(CD 8 1/2)"` the run `8 1/2` (non-bracket characters
starting at `8`) forms one leaf token before the closing bracket. -/
theorem claim_C9_witness :
    scanTok .norm ('8' :: ([' ', '1', '/', '2'] ++ [')'])) =
      Tok.leaf :: scanTok .norm [')'] ∧
    parse_pstree "(CD 8 1/2)" [(0,5)] = .ok [(0,5),(0,5),(0,5)] :=
  ⟨(claim_C9 '8' [' ', '1', '/', '2'] [')'] (by decide) (by decide) (by decide)
      (by simp)).1,
    (claim_C9 '8' [' ', '1', '/', '2'] [')'] (by decide) (by decide) (by decide)
      (by simp)).2.1⟩

theorem termSpansL_append (l1 l2 : List PTree) :
    termSpansL (l1 ++ l2) = termSpansL l1 ++ termSpansL l2 := by
  induction l1 with
  | nil => rfl
  | cons t ts ih =>
    simp only [List.cons_append, termSpansL, List.append_eq, ih, List.append_assoc]

theorem stackTerms_opn (top : Frame) (rest : List Frame) :
    stackTerms ⟨none, []⟩ (top :: rest) = stackTerms top rest := by
  simp [stackTerms, termSpansL, List.reverse_cons, List.map_append,
    List.flatten_append, Frame.kids]

/-- The frame invariant is preserved up to the element the scan ends on. -/
theorem build_frameOk (spans : List (Nat × Nat)) :
    ∀ (ts : List Tok) (tc : Nat) (top : Frame) (rest : List Frame) (t : Frame),
      frameOk top → (∀ f ∈ rest, frameOk f) →
      build spans ts tc top rest = .ok t → frameOk t := by
  intro ts
  induction ts with
  | nil =>
    intro tc top rest t htop _ hok
    cases hok
    exact htop
  | cons tok ts ih =>
    intro tc top rest t htop hrest hok
    cases tok with
    | opn =>
      rw [build_opn] at hok
      exact ih tc ⟨none, []⟩ (top :: rest) t (by constructor <;> rfl)
        (by
          intro f hf
          rcases List.mem_cons.mp hf with rfl | hf
          · exact htop
          · exact hrest f hf) hok
    | cls =>
      rcases rest with _ | ⟨p, rest'⟩
      · rw [build_cls_nil] at hok
        cases hok
      · rcases hta : top.attrs with _ | ⟨sa, ea⟩
        · rw [build_cls_err _ _ _ _ _ _ hta] at hok
          cases hok
        · rcases hhd : (p.kids.headD (PTree.node top.attrs top.kids)).attrs
            with _ | ⟨s0, e0⟩
          · rw [build_cls_errHead _ _ _ _ _ _ hhd] at hok
            cases hok
          · rw [build_cls_ok _ _ _ _ _ _ sa ea s0 e0 hta hhd] at hok
            have hkids : top.kids ≠ [] := by
              intro hk
              obtain ⟨h1, _⟩ := htop
              rw [hk, hta] at h1
              simp at h1
            refine ih tc _ rest' t ?_ (fun f hf => hrest f (by simp [hf])) hok
            refine ⟨by simp [Frame.attrs, Frame.kids], ?_⟩
            show fullL (p.kids ++ [PTree.node top.attrs top.kids]) = true
            rw [fullL_append]
            simp only [Bool.and_eq_true]
            exact ⟨(hrest p (by simp)).2,
              by simp [fullL, PTree.full, hta, htop.2]⟩
    | leaf =>
      rcases hg : spans.get? tc with _ | ⟨s, e⟩
      · rw [build_leaf_err _ _ _ _ _ hg] at hok
        cases hok
      · rw [build_leaf_ok _ _ _ _ _ _ _ hg] at hok
        refine ih (tc + 1) _ rest t ?_ hrest hok
        refine ⟨by simp [Frame.attrs, Frame.kids], ?_⟩
        show fullL (top.kids ++ [PTree.node (some (s, e)) []]) = true
        rw [fullL_append]
        simp [fullL, PTree.full, htop.2]

/-- Leaf-consumption invariant: when the brackets are balanced relative to
the current chain, the terminal spans of the final element are the terminal
spans already on the chain followed by the next `leafCount ts` spans. -/
theorem build_terms (spans : List (Nat × Nat)) :
    ∀ (ts : List Tok) (tc : Nat) (top : Frame) (rest : List Frame) (t : Frame),
      frameOk top → (∀ f ∈ rest, frameOk f) →
      balanced ts rest.length = true →
      build spans ts tc top rest = .ok t →
      termSpansL t.kids = stackTerms top rest ++ (spans.drop tc).take (leafCount ts) := by
  intro ts
  induction ts with
  | nil =>
    intro tc top rest t _ _ hbal hok
    have hrest : rest = [] := by
      cases rest with
      | nil => rfl
      | cons p rest' => simp [balanced] at hbal
    subst hrest
    cases hok
    simp [stackTerms, leafCount]
  | cons tok ts ih =>
    intro tc top rest t htop hrest hbal hok
    cases tok with
    | opn =>
      rw [build_opn] at hok
      have := ih tc ⟨none, []⟩ (top :: rest) t (by constructor <;> rfl)
        (by
          intro f hf
          rcases List.mem_cons.mp hf with rfl | hf
          · exact htop
          · exact hrest f hf)
        (by simpa [balanced, List.length_cons] using hbal) hok
      rw [this, stackTerms_opn]
      rfl
    | cls =>
      rcases rest with _ | ⟨p, rest'⟩
      · simp [balanced] at hbal
      · rcases hta : top.attrs with _ | ⟨sa, ea⟩
        · rw [build_cls_err _ _ _ _ _ _ hta] at hok
          cases hok
        · rcases hhd : (p.kids.headD (PTree.node top.attrs top.kids)).attrs
            with _ | ⟨s0, e0⟩
          · rw [build_cls_errHead _ _ _ _ _ _ hhd] at hok
            cases hok
          · rw [build_cls_ok _ _ _ _ _ _ sa ea s0 e0 hta hhd] at hok
            have hkids : top.kids ≠ [] := by
              intro hk
              obtain ⟨h1, _⟩ := htop
              rw [hk, hta] at h1
              simp at h1
            have := ih tc _ rest' t
              (by
                refine ⟨by simp [Frame.attrs, Frame.kids], ?_⟩
                show fullL (p.kids ++ [PTree.node top.attrs top.kids]) = true
                rw [fullL_append]
                simp only [Bool.and_eq_true]
                exact ⟨(hrest p (by simp)).2,
                  by simp [fullL, PTree.full, hta, htop.2]⟩)
              (fun f hf => hrest f (by simp [hf]))
              (by simpa [balanced, List.length_cons] using hbal) hok
            rw [this]
            have hclosed : termSpans (PTree.node top.attrs top.kids) =
                termSpansL top.kids := by
              rcases hk : top.kids with _ | ⟨k, ks⟩
              · exact absurd hk hkids
              · rfl
            have hnew : stackTerms ⟨some (s0, ea), p.kids ++
                [PTree.node top.attrs top.kids]⟩ rest' =
                stackTerms top (p :: rest') := by
              simp only [stackTerms, Frame.kids, List.reverse_cons,
                List.map_append, List.flatten_append, termSpansL_append,
                termSpansL, hclosed]
              simp [List.append_assoc, termSpansL]
            rw [hnew]
            rfl
    | leaf =>
      rcases hg : spans.get? tc with _ | ⟨s, e⟩
      · rw [build_leaf_err _ _ _ _ _ hg] at hok
        cases hok
      · rw [build_leaf_ok _ _ _ _ _ _ _ hg] at hok
        have := ih (tc + 1) _ rest t
          (by
            refine ⟨by simp [Frame.attrs, Frame.kids], ?_⟩
            show fullL (top.kids ++ [PTree.node (some (s, e)) []]) = true
            rw [fullL_append]
            simp [fullL, PTree.full, htop.2])
          hrest (by simpa [balanced] using hbal) hok
        rw [this]
        have hdrop : spans.drop tc = (s, e) :: spans.drop (tc + 1) := by
          have hlt : tc < spans.length := by
            by_contra hcon
            rw [List.get?_eq_none.mpr (by omega)] at hg
            cases hg
          have hget : spans.get ⟨tc, hlt⟩ = (s, e) := by
            have := List.get?_eq_get hlt
            rw [this] at hg
            exact Option.some.inj hg
          rw [List.drop_eq_get_cons hlt, hget]
        have hnew : stackTerms
            ⟨some (s, e), top.kids ++ [PTree.node (some (s, e)) []]⟩ rest =
            stackTerms top rest ++ [(s, e)] := by
          simp [stackTerms, Frame.kids, termSpansL_append, termSpansL, termSpans,
            List.append_assoc]
        rw [hnew, hdrop]
        rw [show leafCount (.leaf :: ts) = leafCount ts + 1 from rfl]
        rw [List.take_succ_cons]
        simp [List.append_assoc]

/-- C8: token spans are assigned to leaves strictly in left-to-right order:
for a balanced parse string, the terminal spans of the built tree, read in
document order, are exactly the first `leafCount` entries of `tokenSpans`;
in particular when the span count matches the leaf count the terminal spans
equal `tokenSpans` itself, so permuting `tokenSpans` applies the same
permutation to the terminal spans of the output. -/
theorem claim_C8 (parse : String) (spans : List (Nat × Nat)) (t : PTree)
    (hbal : balanced (tokenize parse.data) 0 = true)
    (ht : parseTree parse spans = .ok t) :
    termSpans t = spans.take (leafCount (tokenize parse.data)) ∧
    (spans.length = leafCount (tokenize parse.data) → termSpans t = spans) := by
  have hmain : termSpans t = spans.take (leafCount (tokenize parse.data)) := by
    rcases hb : build spans (tokenize parse.data) 0 ⟨none, []⟩ [] with e | f
    · rw [parseTree, buildTree, hb] at ht
      cases ht
    · rw [parseTree, buildTree, hb] at ht
      cases ht
      have hterm := build_terms spans (tokenize parse.data) 0 ⟨none, []⟩ [] f
        (by constructor <;> rfl) (by intro f hf; cases hf)
        (by simpa using hbal) hb
      have hfok : frameOk f := build_frameOk spans (tokenize parse.data) 0
        ⟨none, []⟩ [] f (by constructor <;> rfl) (by intro f hf; cases hf) hb
      have htt : termSpans (PTree.node f.attrs f.kids) = termSpansL f.kids := by
        rcases hk : f.kids with _ | ⟨k, ks⟩
        · have : f.attrs = none := by
            obtain ⟨h1, _⟩ := hfok
            rw [hk] at h1
            simpa using h1
          rw [this]
          rfl
        · rfl
      rw [htt, hterm]
      simp [stackTerms, termSpansL]
  refine ⟨hmain, fun hlen => ?_⟩
  rw [hmain, ← hlen, List.take_length]

/-- C8 (witness): with matching span count the terminal spans equal the
span list, and swapping the two spans swaps the two terminal spans. -/
theorem claim_C8_witness :
    termSpans (PTree.node (some (0,7)) [PTree.node (some (0,7))
        [PTree.node (some (0,3)) [PTree.node (some (0,3)) []],
         PTree.node (some (4,7)) [PTree.node (some (4,7)) []]]]) =
      [(0,3),(4,7)] ∧
    termSpans (PTree.node (some (4,3)) [PTree.node (some (4,3))
        [PTree.node (some (4,7)) [PTree.node (some (4,7)) []],
         PTree.node (some (0,3)) [PTree.node (some (0,3)) []]]]) =
      [(4,7),(0,3)] :=
  ⟨(claim_C8 "(NP (DT the) (NN cat))" [(0,3),(4,7)]
      (PTree.node (some (0,7)) [PTree.node (some (0,7))
        [PTree.node (some (0,3)) [PTree.node (some (0,3)) []],
         PTree.node (some (4,7)) [PTree.node (some (4,7)) []]]])
      (by decide) rfl).2 (by decide),
   (claim_C8 "(NP (DT the) (NN cat))" [(4,7),(0,3)]
      (PTree.node (some (4,3)) [PTree.node (some (4,3))
        [PTree.node (some (4,7)) [PTree.node (some (4,7)) []],
         PTree.node (some (0,3)) [PTree.node (some (0,3)) []]]])
      (by decide) rfl).2 (by decide)⟩

theorem lastAttrs_append_single (l : List PTree) (t : PTree) :
    lastAttrs (l ++ [t]) = t.attrs := by
  induction l with
  | nil => rfl
  | cons q qs ih =>
    cases qs with
    | nil => rfl
    | cons q2 qs2 => exact ih

theorem agreeL_append (l1 l2 : List PTree) :
    agreeL (l1 ++ l2) = (agreeL l1 && agreeL l2) := by
  induction l1 with
  | nil => simp [agreeL]
  | cons t ts ih =>
    simp only [List.cons_append, agreeL, List.append_eq, ih, Bool.and_assoc]

theorem boundsOf_nonempty {ks : List PTree} {p : Nat × Nat}
    (h : boundsOf ks = some p) : ks ≠ [] := by
  intro hk
  rw [hk] at h
  simp [boundsOf, headAttrs, lastAttrs] at h

/-- Under the freshness condition, the scan preserves the bounds
invariant. -/
theorem build_agree (spans : List (Nat × Nat)) :
    ∀ (ts : List Tok) (fl : Bool) (tc : Nat) (top : Frame) (rest : List Frame)
      (t : Frame),
      frameAg top → (∀ f ∈ rest, frameAg f) →
      (fl = true → top = ⟨none, []⟩) →
      leafFresh ts fl = true →
      build spans ts tc top rest = .ok t → frameAg t := by
  intro ts
  induction ts with
  | nil =>
    intro fl tc top rest t htop _ _ _ hok
    cases hok
    exact htop
  | cons tok ts ih =>
    intro fl tc top rest t htop hrest hfl hfresh hok
    cases tok with
    | opn =>
      rw [build_opn] at hok
      refine ih true tc ⟨none, []⟩ (top :: rest) t (by constructor <;> rfl)
        ?_ (fun _ => rfl) (by simpa [leafFresh] using hfresh) hok
      intro f hf
      rcases List.mem_cons.mp hf with rfl | hf
      · exact htop
      · exact hrest f hf
    | cls =>
      rcases rest with _ | ⟨p, rest'⟩
      · rw [build_cls_nil] at hok
        cases hok
      · rcases hta : top.attrs with _ | ⟨sa, ea⟩
        · rw [build_cls_err _ _ _ _ _ _ hta] at hok
          cases hok
        · rcases hhd : (p.kids.headD (PTree.node top.attrs top.kids)).attrs
            with _ | ⟨s0, e0⟩
          · rw [build_cls_errHead _ _ _ _ _ _ hhd] at hok
            cases hok
          · rw [build_cls_ok _ _ _ _ _ _ sa ea s0 e0 hta hhd] at hok
            have hbounds : boundsOf top.kids = some (sa, ea) := by
              rw [← htop.1, hta]
            have hkids : top.kids ≠ [] := boundsOf_nonempty hbounds
            have hclosed : agree (PTree.node top.attrs top.kids) = true := by
              rcases hk : top.kids with _ | ⟨k, ks⟩
              · exact absurd hk hkids
              · simp only [agree, Bool.and_eq_true]
                constructor
                · rw [htop.1, hk]
                  simp
                · rw [← hk]
                  exact htop.2
            have hhead2 : headAttrs (p.kids ++ [PTree.node top.attrs top.kids]) =
                some (s0, e0) := by
              rcases hpk : p.kids with _ | ⟨q, qs⟩
              · rw [hpk] at hhd
                simpa [headAttrs, List.headD, PTree.attrs, hta] using hhd
              · rw [hpk] at hhd
                simpa [headAttrs, List.headD] using hhd
            refine ih false tc _ rest' t ?_
              (fun f hf => hrest f (by simp [hf]))
              (by intro h; cases h) (by simpa [leafFresh] using hfresh) hok
            constructor
            · show (some (s0, ea) : Option (Nat × Nat)) =
                boundsOf (p.kids ++ [PTree.node top.attrs top.kids])
              rw [boundsOf, hhead2, lastAttrs_append_single]
              simp [PTree.attrs, hta]
            · show agreeL (p.kids ++ [PTree.node top.attrs top.kids]) = true
              rw [agreeL_append]
              simp only [Bool.and_eq_true]
              exact ⟨(hrest p (by simp)).2, by simp [agreeL, hclosed]⟩
    | leaf =>
      have hfl2 : fl = true ∧ leafFresh ts false = true := by
        simpa [leafFresh] using hfresh
      have htopfresh : top = ⟨none, []⟩ := hfl hfl2.1
      subst htopfresh
      rcases hg : spans.get? tc with _ | ⟨s, e⟩
      · rw [build_leaf_err _ _ _ _ _ hg] at hok
        cases hok
      · rw [build_leaf_ok _ _ _ _ _ _ _ hg] at hok
        refine ih false (tc + 1) _ rest t ?_ hrest (by intro h; cases h)
          hfl2.2 hok
        constructor
        · show (some (s, e) : Option (Nat × Nat)) =
            boundsOf ([] ++ [PTree.node (some (s, e)) []])
          simp [boundsOf, headAttrs, lastAttrs, PTree.attrs]
        · show agreeL ([] ++ [PTree.node (some (s, e)) []]) = true
          simp [agreeL, agree]

/-! ### Containment of descendant spans under ordered token spans -/

theorem ord_head_le (l' : List (Nat × Nat)) (s x a b : Nat)
    (hp : List.Pairwise (fun p q => p.2 ≤ q.1) ((s, x) :: l'))
    (hok : ∀ p ∈ (s, x) :: l', p.1 ≤ p.2)
    (hmem : (a, b) ∈ (s, x) :: l') : s ≤ a := by
  rcases List.mem_cons.mp hmem with heq | hmem'
  · cases heq
    exact le_refl _
  · have h1 := (List.pairwise_cons.mp hp).1 (a, b) hmem'
    have h2 := hok (s, x) (by simp)
    simp only at h1 h2
    omega

theorem ord_last_le (l2 : List (Nat × Nat)) (y e a b : Nat)
    (hp : List.Pairwise (fun p q => p.2 ≤ q.1) (l2 ++ [(y, e)]))
    (hok : ∀ p ∈ l2 ++ [(y, e)], p.1 ≤ p.2)
    (hmem : (a, b) ∈ l2 ++ [(y, e)]) : b ≤ e := by
  rcases List.mem_append.mp hmem with hmem' | hmem'
  · have h1 := (List.pairwise_append.mp hp).2.2 (a, b) hmem' (y, e) (by simp)
    have h2 := hok (y, e) (by simp)
    simp only at h1 h2
    omega
  · simp only [List.mem_singleton, Prod.mk.injEq] at hmem'
    omega

theorem boundsOf_eq_some {ks : List PTree} {s e : Nat}
    (h : boundsOf ks = some (s, e)) :
    ∃ hx hy, headAttrs ks = some (s, hx) ∧ lastAttrs ks = some (hy, e) := by
  rcases hh : headAttrs ks with _ | ⟨hs, hx⟩ <;>
    rcases hl : lastAttrs ks with _ | ⟨hy, he⟩ <;>
      simp only [boundsOf, hh, hl] at h
  · cases h
  · cases h
  · cases h
  · cases h
    exact ⟨hx, hy, rfl, rfl⟩

theorem agreeL_cons_iff {k : PTree} {ks : List PTree} :
    agreeL (k :: ks) = true ↔ agree k = true ∧ agreeL ks = true := by
  rw [show agreeL (k :: ks) = (agree k && agreeL ks) from rfl, Bool.and_eq_true]

theorem fullL_cons_iff {k : PTree} {ks : List PTree} :
    fullL (k :: ks) = true ↔ k.full = true ∧ fullL ks = true := by
  rw [show fullL (k :: ks) = (k.full && fullL ks) from rfl, Bool.and_eq_true]

theorem full_attrs_some {t : PTree} (h : t.full = true) :
    ∃ p : Nat × Nat, t.attrs = some p := by
  rcases t with ⟨a, ks⟩
  rw [show (PTree.node a ks).full = (a.isSome && fullL ks) from rfl,
    Bool.and_eq_true] at h
  exact Option.isSome_iff_exists.mp h.1

mutual

theorem terms_bounds : ∀ (t : PTree) (s e : Nat), agree t = true →
    t.full = true → t.attrs = some (s, e) →
    (∃ x l, termSpans t = (s, x) :: l) ∧ (∃ y l2, termSpans t = l2 ++ [(y, e)])
  | .node a [], s, e, _, _, hattr => by
    simp only [PTree.attrs] at hattr
    subst hattr
    exact ⟨⟨e, [], rfl⟩, ⟨s, [], rfl⟩⟩
  | .node a (k :: ks), s, e, hag, hfu, hattr => by
    simp only [PTree.attrs] at hattr
    subst hattr
    rw [show agree (PTree.node (some (s, e)) (k :: ks)) =
      ((some (s, e) == boundsOf (k :: ks)) && agreeL (k :: ks)) from rfl,
      Bool.and_eq_true, beq_iff_eq] at hag
    obtain ⟨hbo, hagl⟩ := hag
    have hfl : fullL (k :: ks) = true := by
      rw [show (PTree.node (some (s, e)) (k :: ks)).full =
        ((some (s, e) : Option (Nat × Nat)).isSome && fullL (k :: ks)) from rfl,
        Bool.and_eq_true] at hfu
      exact hfu.2
    obtain ⟨hx, hy, hh, hl⟩ := boundsOf_eq_some hbo.symm
    exact termsL_bounds (k :: ks) s hx hy e hagl hfl (by simp) hh hl

theorem termsL_bounds : ∀ (ks : List PTree) (hs hx hy he : Nat),
    agreeL ks = true → fullL ks = true → ks ≠ [] →
    headAttrs ks = some (hs, hx) → lastAttrs ks = some (hy, he) →
    (∃ x l, termSpansL ks = (hs, x) :: l) ∧
      (∃ y l2, termSpansL ks = l2 ++ [(y, he)])
  | [], _, _, _, _, _, _, hne, _, _ => absurd rfl hne
  | [k], hs, hx, hy, he, hag, hfu, _, hh, hl => by
    simp only [headAttrs] at hh
    simp only [lastAttrs] at hl
    have hagk : agree k = true := (agreeL_cons_iff.mp hag).1
    have hfuk : k.full = true := (fullL_cons_iff.mp hfu).1
    obtain ⟨⟨x, l, hhead⟩, -⟩ := terms_bounds k hs hx hagk hfuk hh
    obtain ⟨-, ⟨y, l2, hlast⟩⟩ := terms_bounds k hy he hagk hfuk hl
    refine ⟨⟨x, l, ?_⟩, ⟨y, l2, ?_⟩⟩
    · show termSpans k ++ [] = _
      rw [List.append_nil, hhead]
    · show termSpans k ++ [] = _
      rw [List.append_nil, hlast]
  | k :: k2 :: ks, hs, hx, hy, he, hag, hfu, _, hh, hl => by
    simp only [headAttrs] at hh
    have hag1 := agreeL_cons_iff.mp hag
    have hfu1 := fullL_cons_iff.mp hfu
    obtain ⟨⟨x, l, hhead⟩, -⟩ := terms_bounds k hs hx hag1.1 hfu1.1 hh
    have hk2full : k2.full = true := (fullL_cons_iff.mp hfu1.2).1
    obtain ⟨⟨h2s, h2x⟩, hh2⟩ := full_attrs_some hk2full
    obtain ⟨-, ⟨y, l2, hlast⟩⟩ := termsL_bounds (k2 :: ks) h2s h2x hy he hag1.2
      hfu1.2 (by simp) (by simpa [headAttrs] using hh2) hl
    constructor
    · refine ⟨x, l ++ termSpansL (k2 :: ks), ?_⟩
      show termSpans k ++ termSpansL (k2 :: ks) = _
      rw [hhead]
      simp [List.cons_append]
    · refine ⟨y, termSpans k ++ l2, ?_⟩
      show termSpans k ++ termSpansL (k2 :: ks) = _
      rw [hlast, List.append_assoc]

end

theorem mem_preorderL : ∀ (ks : List PTree) (u : PTree),
    u ∈ preorderL ks → ∃ k, k ∈ ks ∧ u ∈ preorder k := by
  intro ks
  induction ks with
  | nil =>
    intro u hu
    rw [preorderL] at hu
    cases hu
  | cons k ks ih =>
    intro u hu
    rw [preorderL] at hu
    rcases List.mem_append.mp hu with h | h
    · exact ⟨k, by simp, h⟩
    · obtain ⟨k2, hk2, hu2⟩ := ih u h
      exact ⟨k2, by simp [hk2], hu2⟩

theorem agreeL_mem : ∀ (ks : List PTree) (k : PTree), k ∈ ks →
    agreeL ks = true → agree k = true := by
  intro ks
  induction ks with
  | nil => intro k hk; cases hk
  | cons q qs ih =>
    intro k hk hag
    have h := agreeL_cons_iff.mp hag
    rcases List.mem_cons.mp hk with rfl | hk'
    · exact h.1
    · exact ih k hk' h.2

theorem fullL_mem : ∀ (ks : List PTree) (k : PTree), k ∈ ks →
    fullL ks = true → k.full = true := by
  intro ks
  induction ks with
  | nil => intro k hk; cases hk
  | cons q qs ih =>
    intro k hk hfu
    have h := fullL_cons_iff.mp hfu
    rcases List.mem_cons.mp hk with rfl | hk'
    · exact h.1
    · exact ih k hk' h.2

theorem termsL_component : ∀ (ks : List PTree) (k : PTree), k ∈ ks →
    List.Sublist (termSpans k) (termSpansL ks) := by
  intro ks
  induction ks with
  | nil => intro k hk; cases hk
  | cons q qs ih =>
    intro k hk
    rcases List.mem_cons.mp hk with rfl | hk'
    · exact (List.sublist_append_left _ _)
    · exact (ih k hk').trans (List.sublist_append_right _ _)

mutual

theorem sub_agree_full : ∀ (t u : PTree), u ∈ preorder t →
    agree t = true → t.full = true → agree u = true ∧ u.full = true
  | .node a ks, u, hmem, hag, hfu => by
    rw [preorder] at hmem
    rcases List.mem_cons.mp hmem with rfl | hmem'
    · exact ⟨hag, hfu⟩
    · have hfl : fullL ks = true := by
        rw [show (PTree.node a ks).full = (a.isSome && fullL ks) from rfl,
          Bool.and_eq_true] at hfu
        exact hfu.2
      have hagl : agreeL ks = true := by
        rcases ks with _ | ⟨k, ks'⟩
        · rw [preorderL] at hmem'
          cases hmem'
        · rw [show agree (PTree.node a (k :: ks')) =
            ((a == boundsOf (k :: ks')) && agreeL (k :: ks')) from rfl,
            Bool.and_eq_true] at hag
          exact hag.2
      exact subL_agree_full ks u hmem' hagl hfl

theorem subL_agree_full : ∀ (ks : List PTree) (u : PTree), u ∈ preorderL ks →
    agreeL ks = true → fullL ks = true → agree u = true ∧ u.full = true
  | [], u, hmem, _, _ => by
    rw [preorderL] at hmem
    cases hmem
  | k :: ks, u, hmem, hag, hfu => by
    rw [preorderL] at hmem
    rcases List.mem_append.mp hmem with h | h
    · exact sub_agree_full k u h (agreeL_cons_iff.mp hag).1
        (fullL_cons_iff.mp hfu).1
    · exact subL_agree_full ks u h (agreeL_cons_iff.mp hag).2
        (fullL_cons_iff.mp hfu).2

end

mutual

theorem sub_terms : ∀ (t u : PTree), u ∈ preorder t →
    List.Sublist (termSpans u) (termSpans t)
  | .node a ks, u, hmem => by
    rw [preorder] at hmem
    rcases List.mem_cons.mp hmem with rfl | hmem'
    · exact List.Sublist.refl _
    · rcases ks with _ | ⟨k, ks'⟩
      · rw [preorderL] at hmem'
        cases hmem'
      · exact subL_terms (k :: ks') u hmem'

theorem subL_terms : ∀ (ks : List PTree) (u : PTree), u ∈ preorderL ks →
    List.Sublist (termSpans u) (termSpansL ks)
  | [], u, hmem => by
    rw [preorderL] at hmem
    cases hmem
  | k :: ks, u, hmem => by
    rw [preorderL] at hmem
    rcases List.mem_append.mp hmem with h | h
    · exact (sub_terms k u h).trans (List.sublist_append_left _ _)
    · exact (subL_terms ks u h).trans (List.sublist_append_right _ _)

end

/-- Core containment: the span of an element bounds the spans of every
element of its subtree, provided the terminal spans are in increasing
order. -/
theorem contain_tree : ∀ (t : PTree) (s e : Nat),
    agree t = true → t.full = true →
    List.Pairwise (fun p q : Nat × Nat => p.2 ≤ q.1) (termSpans t) →
    (∀ p ∈ termSpans t, p.1 ≤ p.2) →
    t.attrs = some (s, e) →
    ∀ v ∈ preorder t, ∃ sv ev, v.attrs = some (sv, ev) ∧ s ≤ sv ∧ ev ≤ e
  | .node a [], s, e, hag, hfu, hpair, hok, hattr => by
    intro v hv
    rw [preorder] at hv
    rcases List.mem_cons.mp hv with rfl | hv'
    · exact ⟨s, e, hattr, le_refl _, le_refl _⟩
    · rw [preorderL] at hv'
      cases hv'
  | .node a (k0 :: ks'), s, e, hag, hfu, hpair, hok, hattr => by
    intro v hv
    rw [preorder] at hv
    rcases List.mem_cons.mp hv with rfl | hv'
    · exact ⟨s, e, hattr, le_refl _, le_refl _⟩
    · obtain ⟨k, hkmem, hvk⟩ := mem_preorderL (k0 :: ks') v hv'
      have hagk : agree k = true := agreeL_mem _ k hkmem (by
        rw [show agree (PTree.node a (k0 :: ks')) =
          ((a == boundsOf (k0 :: ks')) && agreeL (k0 :: ks')) from rfl,
          Bool.and_eq_true] at hag
        exact hag.2)
      have hfuk : k.full = true := fullL_mem _ k hkmem (by
        rw [show (PTree.node a (k0 :: ks')).full =
          (a.isSome && fullL (k0 :: ks')) from rfl, Bool.and_eq_true] at hfu
        exact hfu.2)
      have hsubk : List.Sublist (termSpans k) (termSpans (PTree.node a (k0 :: ks'))) :=
        termsL_component (k0 :: ks') k hkmem
      have hpk : List.Pairwise (fun p q : Nat × Nat => p.2 ≤ q.1)
          (termSpans k) := hpair.sublist hsubk
      have hokk : ∀ p ∈ termSpans k, p.1 ≤ p.2 :=
        fun p hp => hok p (hsubk.subset hp)
      obtain ⟨⟨sk, ek⟩, hka⟩ := full_attrs_some hfuk
      obtain ⟨sv, ev, hva, hsv, hev⟩ :=
        contain_tree k sk ek hagk hfuk hpk hokk hka v hvk
      refine ⟨sv, ev, hva, ?_, ?_⟩
      · -- s ≤ sk ≤ sv
        simp only [PTree.attrs] at hattr
        subst hattr
        obtain ⟨⟨x0, l0, hht⟩, -⟩ := terms_bounds _ s e hag hfu rfl
        obtain ⟨⟨xk, lk, hhk⟩, -⟩ := terms_bounds k sk ek hagk hfuk hka
        have hmemk : (sk, xk) ∈ termSpans (PTree.node (some (s, e)) (k0 :: ks')) := by
          apply hsubk.subset
          rw [hhk]
          simp
        rw [hht] at hmemk hpair hok
        have := ord_head_le l0 s x0 sk xk hpair hok hmemk
        omega
      · -- ev ≤ ek ≤ e
        simp only [PTree.attrs] at hattr
        subst hattr
        obtain ⟨-, ⟨y0, l0, hlt⟩⟩ := terms_bounds _ s e hag hfu rfl
        obtain ⟨-, ⟨yk, lk, hlk⟩⟩ := terms_bounds k sk ek hagk hfuk hka
        have hmemk : (yk, ek) ∈ termSpans (PTree.node (some (s, e)) (k0 :: ks')) := by
          apply hsubk.subset
          rw [hlk]
          simp
        rw [hlt] at hmemk hpair hok
        have := ord_last_le l0 y0 e yk ek hpair hok hmemk
        omega
termination_by t => sizeOf t
decreasing_by
  have := List.sizeOf_lt_of_mem hkmem
  simp only [PTree.node.sizeOf_spec]
  omega

/-- Containment for every pair of an element and one of its descendants. -/
theorem contain_all (t : PTree) (hag : agree t = true) (hfu : t.full = true)
    (hpair : List.Pairwise (fun p q : Nat × Nat => p.2 ≤ q.1) (termSpans t))
    (hok : ∀ p ∈ termSpans t, p.1 ≤ p.2) :
    ∀ u ∈ preorder t, ∀ v ∈ preorder u, ∃ su eu sv ev,
      u.attrs = some (su, eu) ∧ v.attrs = some (sv, ev) ∧ su ≤ sv ∧ ev ≤ eu := by
  intro u hu v hv
  obtain ⟨hagu, hfuu⟩ := sub_agree_full t u hu hag hfu
  have hsub : List.Sublist (termSpans u) (termSpans t) := sub_terms t u hu
  obtain ⟨⟨su, eu⟩, hua⟩ := full_attrs_some hfuu
  obtain ⟨sv, ev, hva, h1, h2⟩ := contain_tree u su eu hagu hfuu
    (hpair.sublist hsub) (fun p hp => hok p (hsub.subset hp)) hua v hv
  exact ⟨su, eu, sv, ev, hua, hva, h1, h2⟩

/-- C2 (counterexample): in `"(X (Y bar) baz)"` the trailing leaf `baz`
overwrites its parent's `start`, so `X` carries span `(4,7)` while its first
child `Y` carries `(0,3)` — the first-child/`start` invariant and the
containment of descendants fail even for ordered token spans. -/
theorem claim_C2_cex :
    parseTree "(X (Y bar) baz)" [(0,3),(4,7)] =
      .ok (PTree.node (some (4,7)) [PTree.node (some (4,7))
        [PTree.node (some (0,3)) [PTree.node (some (0,3)) []],
         PTree.node (some (4,7)) []]]) ∧
    agree (PTree.node (some (4,7)) [PTree.node (some (4,7))
        [PTree.node (some (0,3)) [PTree.node (some (0,3)) []],
         PTree.node (some (4,7)) []]]) = false ∧
    List.Pairwise (fun p q : Nat × Nat => p.2 ≤ q.1) [(0,3),(4,7)] :=
  ⟨rfl, by decide, by decide⟩

/-- C2 (amended): for a balanced parse string in which every leaf token
directly follows its node's opening bracket (CoreNLP preterminal form) and
ordered token spans, every non-terminal element of the resulting tree has
`start` equal to its first child's `start` and `end` equal to its last
child's `end`; the terminal elements carry, in left-to-right order, the
consumed prefix of the token spans; and every element's span contains the
spans of all elements of its subtree.  The spec's scenario evaluates as
stated (with elements shifted by the wrapper at index 0). -/
theorem claim_C2 (parse : String) (spans : List (Nat × Nat))
    (m : List (Nat × Nat)) (t : PTree)
    (hfresh : leavesFresh (tokenize parse.data) = true)
    (hbal : balanced (tokenize parse.data) 0 = true)
    (hord : List.Pairwise (fun p q : Nat × Nat => p.2 ≤ q.1) spans)
    (hsp : ∀ p ∈ spans, p.1 ≤ p.2)
    (hok : parse_pstree parse spans = .ok m)
    (ht : parseTree parse spans = .ok t) :
    agree t = true ∧
    termSpans t = spans.take (leafCount (tokenize parse.data)) ∧
    (∀ u ∈ preorder t, ∀ v ∈ preorder u, ∃ su eu sv ev,
      u.attrs = some (su, eu) ∧ v.attrs = some (sv, ev) ∧ su ≤ sv ∧ ev ≤ eu) ∧
    parse_pstree "(S (NP (DT the) (NN cat)) (VP (VBD sat)))" [(0,3),(4,7),(8,11)] =
      .ok [(0,11),(0,11),(0,7),(0,3),(0,3),(4,7),(4,7),(8,11),(8,11),(8,11)] := by
  rcases hb : build spans (tokenize parse.data) 0 ⟨none, []⟩ [] with e | f
  · rw [parseTree, buildTree, hb] at ht
    cases ht
  · rw [parseTree, buildTree, hb] at ht
    cases ht
    have hfag : frameAg f := build_agree spans (tokenize parse.data) false 0
      ⟨none, []⟩ [] f ⟨rfl, rfl⟩ (by intro f hf; cases hf)
      (by intro h; cases h) hfresh hb
    have hfok : frameOk f := build_frameOk spans (tokenize parse.data) 0
      ⟨none, []⟩ [] f (by constructor <;> rfl) (by intro f hf; cases hf) hb
    have hok2 : spanList (PTree.node f.attrs f.kids) = Except.ok m := by
      rw [parse_pstree, parseToks, buildTree, hb] at hok
      exact hok
    have hkids : f.kids ≠ [] := by
      intro hk
      have hattr : f.attrs = none := by
        have := hfok.1
        rw [hk] at this
        simpa using this
      rw [hattr, hk] at hok2
      rw [show spanList (PTree.node none []) = .error .noAttr from rfl] at hok2
      cases hok2
    have hagree : agree (PTree.node f.attrs f.kids) = true := by
      rcases hk : f.kids with _ | ⟨k, ks⟩
      · exact absurd hk hkids
      · rw [show agree (PTree.node f.attrs (k :: ks)) =
          ((f.attrs == boundsOf (k :: ks)) && agreeL (k :: ks)) from rfl]
        rw [← hk, hfag.1, hk]
        simp only [beq_self_eq_true, Bool.true_and]
        rw [← hk]
        exact hfag.2
    have hfull : (PTree.node f.attrs f.kids).full = true := by
      rw [show (PTree.node f.attrs f.kids).full =
        (f.attrs.isSome && fullL f.kids) from rfl]
      rw [hfok.1]
      simp only [Bool.and_eq_true]
      refine ⟨?_, hfok.2⟩
      cases hk : f.kids.isEmpty
      · simp
      · exact absurd (List.isEmpty_iff.mp hk) hkids
    have hterms : termSpans (PTree.node f.attrs f.kids) =
        spans.take (leafCount (tokenize parse.data)) := by
      have hterm := build_terms spans (tokenize parse.data) 0 ⟨none, []⟩ [] f
        (by constructor <;> rfl) (by intro f hf; cases hf)
        (by simpa using hbal) hb
      have htt : termSpans (PTree.node f.attrs f.kids) = termSpansL f.kids := by
        rcases hk : f.kids with _ | ⟨k, ks⟩
        · exact absurd hk hkids
        · rfl
      rw [htt, hterm]
      simp [stackTerms, termSpansL]
    refine ⟨hagree, hterms, ?_, rfl⟩
    exact contain_all _ hagree hfull
      (by rw [hterms]; exact hord.sublist (List.take_sublist _ _))
      (by
        intro p hp
        rw [hterms] at hp
        exact hsp p (List.take_subset _ _ hp))

/-- C2 (witness): on the scenario string the output tree satisfies the
bounds invariant and its terminals carry the three token spans in order. -/
theorem claim_C2_witness :
    agree (PTree.node (some (0,11)) [PTree.node (some (0,11))
      [PTree.node (some (0,7))
        [PTree.node (some (0,3)) [PTree.node (some (0,3)) []],
         PTree.node (some (4,7)) [PTree.node (some (4,7)) []]],
       PTree.node (some (8,11))
        [PTree.node (some (8,11)) [PTree.node (some (8,11)) []]]]]) = true ∧
    termSpans (PTree.node (some (0,11)) [PTree.node (some (0,11))
      [PTree.node (some (0,7))
        [PTree.node (some (0,3)) [PTree.node (some (0,3)) []],
         PTree.node (some (4,7)) [PTree.node (some (4,7)) []]],
       PTree.node (some (8,11))
        [PTree.node (some (8,11)) [PTree.node (some (8,11)) []]]]]) =
      [(0,3),(4,7),(8,11)] := by
  have h := claim_C2 "(S (NP (DT the) (NN cat)) (VP (VBD sat)))"
    [(0,3),(4,7),(8,11)]
    [(0,11),(0,11),(0,7),(0,3),(0,3),(4,7),(4,7),(8,11),(8,11),(8,11)]
    (PTree.node (some (0,11)) [PTree.node (some (0,11))
      [PTree.node (some (0,7))
        [PTree.node (some (0,3)) [PTree.node (some (0,3)) []],
         PTree.node (some (4,7)) [PTree.node (some (4,7)) []]],
       PTree.node (some (8,11))
        [PTree.node (some (8,11)) [PTree.node (some (8,11)) []]]]])
    (by decide) (by decide) (by decide) (by decide) rfl rfl
  exact ⟨h.1, h.2.1.trans (by decide)⟩

/-! ### Fixed point and invariants of the pruning loop -/

theorem pruneLoop_fix (g : Graph) :
    findSink (pruneLoop g) = none ∧ findCollapse (pruneLoop g) = none := by
  generalize hn : g.vars.length = n
  induction n using Nat.strong_induction_on generalizing g with
  | _ n ih =>
    rcases hs : findSink g with _ | v
    · rcases hc : findCollapse g with _ | ⟨e1, e2⟩
      · rw [pruneLoop_done g hs hc]
        exact ⟨hs, hc⟩
      · rw [pruneLoop_coll g e1 e2 hs hc]
        have hm := collPred_dst_mem (findCollapse_pred hc)
        refine ih _ ?_ _ rfl
        rw [← hn]
        have hv : (collapseAt g e1 e2).vars = (removeNode g e1.dst).vars := by
          simp only [collapseAt, mergeTent]
          split <;> rfl
        rw [hv]
        exact removeNode_vars_lt hm
    · rw [pruneLoop_sink g v hs]
      refine ih _ ?_ _ rfl
      rw [← hn]
      exact removeNode_vars_lt (findSink_mem hs)

theorem pruneLoop_pres (P : Graph → Prop)
    (h1 : ∀ g v, findSink g = some v → P g → P (removeNode g v))
    (h2 : ∀ g e1 e2, findSink g = none → findCollapse g = some (e1, e2) →
      P g → P (collapseAt g e1 e2)) :
    ∀ g, P g → P (pruneLoop g) := by
  intro g
  generalize hn : g.vars.length = n
  induction n using Nat.strong_induction_on generalizing g with
  | _ n ih =>
    intro hP
    rcases hs : findSink g with _ | v
    · rcases hc : findCollapse g with _ | ⟨e1, e2⟩
      · rw [pruneLoop_done g hs hc]
        exact hP
      · rw [pruneLoop_coll g e1 e2 hs hc]
        have hm := collPred_dst_mem (findCollapse_pred hc)
        refine ih _ ?_ _ rfl (h2 g e1 e2 hs hc hP)
        rw [← hn]
        have hv : (collapseAt g e1 e2).vars = (removeNode g e1.dst).vars := by
          simp only [collapseAt, mergeTent]
          split <;> rfl
        rw [hv]
        exact removeNode_vars_lt hm
    · rw [pruneLoop_sink g v hs]
      refine ih _ ?_ _ rfl (h1 g v hs hP)
      rw [← hn]
      exact removeNode_vars_lt (findSink_mem hs)

theorem pruneLoop_vars_subset (g : Graph) : (pruneLoop g).vars ⊆ g.vars := by
  generalize hn : g.vars.length = n
  induction n using Nat.strong_induction_on generalizing g with
  | _ n ih =>
    rcases hs : findSink g with _ | v
    · rcases hc : findCollapse g with _ | ⟨e1, e2⟩
      · rw [pruneLoop_done g hs hc]
        exact fun x h => h
      · rw [pruneLoop_coll g e1 e2 hs hc]
        have hm := collPred_dst_mem (findCollapse_pred hc)
        have hv : (collapseAt g e1 e2).vars = (removeNode g e1.dst).vars := by
          simp only [collapseAt, mergeTent]
          split <;> rfl
        refine subset_trans (ih _ ?_ _ rfl) ?_
        · rw [← hn, hv]
          exact removeNode_vars_lt hm
        · rw [hv]
          exact List.erase_subset _ _
    · rw [pruneLoop_sink g v hs]
      refine subset_trans (ih _ ?_ _ rfl) (List.erase_subset _ _)
      rw [← hn]
      exact removeNode_vars_lt (findSink_mem hs)

theorem dedupTentGo_keys : ∀ (l : List TEdge) (seen : List (Nat × Nat)),
    tentKeysOk (dedupTentGo seen l) ∧
      ∀ e ∈ dedupTentGo seen l, (e.src, e.dst) ∉ seen := by
  intro l
  induction l with
  | nil => intro seen; exact ⟨List.Pairwise.nil, by intro e he; cases he⟩
  | cons d l ih =>
    intro seen
    rw [dedupTentGo]
    split
    · exact ih seen
    · rename_i hnotin
      obtain ⟨hp, hmem⟩ := ih ((d.src, d.dst) :: seen)
      constructor
      · refine List.Pairwise.cons ?_ hp
        intro f hf hkey
        have := hmem f hf
        apply this
        simp only [List.mem_cons]
        left
        rw [hkey.1, hkey.2]
      · intro e he
        rcases List.mem_cons.mp he with rfl | he'
        · exact hnotin
        · intro hs
          exact (hmem e he') (by simp [hs])

theorem dedupTentGo_id : ∀ (l : List TEdge) (seen : List (Nat × Nat)),
    tentKeysOk l → (∀ e ∈ l, (e.src, e.dst) ∉ seen) →
    dedupTentGo seen l = l := by
  intro l
  induction l with
  | nil => intro seen _ _; rfl
  | cons d l ih =>
    intro seen hkeys hnotin
    rw [dedupTentGo]
    rw [if_neg (hnotin d (by simp))]
    have hkeys' := List.pairwise_cons.mp hkeys
    rw [ih ((d.src, d.dst) :: seen) hkeys'.2]
    intro e he
    simp only [List.mem_cons, not_or]
    refine ⟨?_, hnotin e (by simp [he])⟩
    intro heq
    have hne := hkeys'.1 e he
    apply hne
    have h1 : e.src = d.src := congrArg Prod.fst heq
    have h2 : e.dst = d.dst := congrArg Prod.snd heq
    exact ⟨h1.symm, h2.symm⟩

theorem tentKeysOk_removeNode {g : Graph} (hk : tentKeysOk g.tent) (v : Nat) :
    tentKeysOk (removeNode g v).tent :=
  hk.sublist (List.filter_sublist _)

theorem tentKeysOk_mergeTent {g : Graph} (hk : tentKeysOk g.tent) (a b : Nat) :
    tentKeysOk (mergeTent g a b).tent := by
  rw [mergeTent]
  split
  · exact hk
  · rename_i hnone
    rw [List.any_eq_true] at hnone
    show tentKeysOk (g.tent ++ [⟨a, b, none⟩])
    rw [tentKeysOk, List.pairwise_append]
    refine ⟨hk, by simp [tentKeysOk], ?_⟩
    intro x hx y hy
    simp only [List.mem_singleton] at hy
    subst hy
    intro hkey
    exact hnone ⟨x, hx, by simp [hkey.1, hkey.2]⟩

theorem pruneLoop_tentKeysOk (g : Graph) (hk : tentKeysOk g.tent) :
    tentKeysOk (pruneLoop g).tent := by
  refine pruneLoop_pres (fun h => tentKeysOk h.tent) ?_ ?_ g hk
  · intro g v _ hP
    exact tentKeysOk_removeNode hP v
  · intro g e1 e2 _ _ hP
    exact tentKeysOk_mergeTent (tentKeysOk_removeNode hP e1.dst) e1.src e2.dst

/-- C6: `prune_tentails` is idempotent — a second run deletes no nodes and
no relationships and returns the graph unchanged. -/
theorem claim_C6 (g : Graph) :
    prune_tentails (prune_tentails g) = prune_tentails g := by
  have hkeys0 : tentKeysOk (dedupTent g.tent) := (dedupTentGo_keys g.tent []).1
  have hkeys : tentKeysOk (prune_tentails g).tent :=
    pruneLoop_tentKeysOk _ hkeys0
  have hfix := pruneLoop_fix { g with tent := dedupTent g.tent }
  rw [show prune_tentails (prune_tentails g) =
    pruneLoop { prune_tentails g with tent := dedupTent (prune_tentails g).tent }
      from rfl]
  rw [show dedupTent (prune_tentails g).tent = (prune_tentails g).tent from
    dedupTentGo_id _ [] hkeys (by intro e _; simp)]
  rw [show { prune_tentails g with tent := (prune_tentails g).tent } =
    prune_tentails g by rfl]
  exact pruneLoop_done _ hfix.1 hfix.2

/-! ### Provenance of surviving relationships -/

theorem dedupTentGo_subset : ∀ (l : List TEdge) (seen : List (Nat × Nat)),
    ∀ e ∈ dedupTentGo seen l, e ∈ l := by
  intro l
  induction l with
  | nil => intro seen e he; cases he
  | cons d l ih =>
    intro seen e he
    rw [dedupTentGo] at he
    split at he
    · exact List.mem_cons_of_mem _ (ih seen e he)
    · rcases List.mem_cons.mp he with rfl | he'
      · exact List.mem_cons_self _ _
      · exact List.mem_cons_of_mem _ (ih _ e he')

theorem prune_provenance (g : Graph) :
    ∀ e ∈ (prune_tentails g).tent, e ∈ g.tent ∨ e.tname = none := by
  refine pruneLoop_pres (fun h => ∀ e ∈ h.tent, e ∈ g.tent ∨ e.tname = none)
    ?_ ?_ { g with tent := dedupTent g.tent } ?_
  · intro h v _ hP e he
    exact hP e (List.mem_of_mem_filter he)
  · intro h e1 e2 _ _ hP e he
    rw [collapseAt, mergeTent] at he
    split at he
    · exact hP e (List.mem_of_mem_filter he)
    · rcases List.mem_append.mp he with he' | he'
      · exact hP e (List.mem_of_mem_filter he')
      · right
        rw [List.mem_singleton.mp he']
  · intro e he
    exact Or.inl (dedupTentGo_subset g.tent [] e he)

theorem mergeTent_of_exists (g : Graph) (a b : Nat)
    (h : ∃ e ∈ g.tent, e.src = a ∧ e.dst = b) : mergeTent g a b = g := by
  rw [mergeTent, if_pos]
  rw [List.any_eq_true]
  obtain ⟨e, he, h1, h2⟩ := h
  exact ⟨e, he, by simp [h1, h2]⟩

/-- C10: the relationship created by a collapse carries no `transformName`:
every `TENTAILS_VAR` relationship of the pruned graph either already existed
or is property-less, `MERGE` creates nothing when a relationship with the
same endpoints exists, and on the chain scenarios the per-hop transform
names `t1`/`t2`/`t3` are dropped in favour of a single property-less
relationship (or the pre-existing edge, kept with its own label). -/
theorem claim_C10 :
    (∀ g : Graph, ∀ e ∈ (prune_tentails g).tent, e ∈ g.tent ∨ e.tname = none) ∧
    (∀ (g : Graph) (a b : Nat), (∃ e ∈ g.tent, e.src = a ∧ e.dst = b) →
      mergeTent g a b = g) ∧
    prune_tentails
        ⟨[1, 2, 3, 4], [10, 11],
          [⟨1, 2, some "t1"⟩, ⟨2, 3, some "t2"⟩, ⟨3, 4, some "t3"⟩],
          [(10, 1), (11, 4)]⟩ =
      ⟨[1, 4], [10, 11], [⟨1, 4, none⟩], [(10, 1), (11, 4)]⟩ ∧
    prune_tentails
        ⟨[1, 2, 4], [10, 11],
          [⟨1, 2, some "t1"⟩, ⟨2, 4, some "t2"⟩, ⟨1, 4, some "x"⟩],
          [(10, 1), (11, 4)]⟩ =
      ⟨[1, 4], [10, 11], [⟨1, 4, some "x"⟩], [(10, 1), (11, 4)]⟩ :=
  ⟨prune_provenance, mergeTent_of_exists, prune_eval_collapse,
    prune_eval_mergeExisting⟩

/-- The merge-only-when-absent clause of C10 applied at a concrete graph
that already carries a labelled `1 → 4` relationship. -/
theorem claim_C10_witness :
    mergeTent ⟨[1, 4], [10, 11], [⟨1, 4, some "x"⟩], []⟩ 1 4 =
      ⟨[1, 4], [10, 11], [⟨1, 4, some "x"⟩], []⟩ :=
  claim_C10.2.1 ⟨[1, 4], [10, 11], [⟨1, 4, some "x"⟩], []⟩ 1 4
    ⟨⟨1, 4, some "x"⟩, by simp, rfl, rfl⟩

/-! ### No collapse candidate survives pruning -/

theorem findCollapseIn_none {g : Graph} : ∀ {l : List TEdge},
    findCollapseIn g l = none →
    ∀ e1 ∈ l, ∀ e2 ∈ g.tent, collPred g e1 e2 = false := by
  intro l
  induction l with
  | nil => intro _ e1 he1; cases he1
  | cons a es ih =>
    intro h e1 he1 e2 he2
    rw [findCollapseIn] at h
    rcases hf : g.tent.find? (fun e2 => collPred g a e2) with _ | e2h
    · rw [hf] at h
      rcases List.mem_cons.mp he1 with rfl | he1'
      · exact Bool.eq_false_iff.mpr (List.find?_eq_none.mp hf e2 he2)
      · exact ih h e1 he1' e2 he2
    · rw [hf] at h
      cases h

theorem findCollapse_none {g : Graph} (h : findCollapse g = none) :
    ∀ e1 ∈ g.tent, ∀ e2 ∈ g.tent, collPred g e1 e2 = false :=
  findCollapseIn_none h

theorem mem_length_one_eq {α : Type} {l : List α} (h : l.length = 1)
    {a b : α} (ha : a ∈ l) (hb : b ∈ l) : a = b := by
  obtain ⟨x, rfl⟩ := List.length_eq_one.mp h
  rw [List.mem_singleton.mp ha, List.mem_singleton.mp hb]

theorem length_filter_or_split {α : Type} (l : List α) (p q : α → Bool) :
    (l.filter (fun e => p e || q e)).length =
      (l.filter (fun e => q e)).length +
        (l.filter (fun e => p e && !(q e))).length := by
  induction l with
  | nil => rfl
  | cons a l ih =>
    cases hp : p a <;> cases hq : q a <;>
      simp [List.filter_cons, hp, hq, ih] <;> try omega

theorem prune_hasVar_events (g : Graph)
    (hW : ∀ p ∈ g.hasVar, p.1 ∈ g.events) :
    ∀ p ∈ (prune_tentails g).hasVar, p.1 ∈ (prune_tentails g).events := by
  refine pruneLoop_pres (fun h => ∀ p ∈ h.hasVar, p.1 ∈ h.events) ?_ ?_
    { g with tent := dedupTent g.tent } hW
  · intro h v _ hP p hp
    exact hP p (List.mem_of_mem_filter hp)
  · intro h e1 e2 _ _ hP p hp
    have hhv : (collapseAt h e1 e2).hasVar = (removeNode h e1.dst).hasVar := by
      rw [collapseAt, mergeTent]
      split <;> rfl
    have hev : (collapseAt h e1 e2).events = h.events := by
      rw [collapseAt, mergeTent]
      split <;> rfl
    rw [hhv] at hp
    rw [hev]
    exact hP p (List.mem_of_mem_filter hp)

/-- C3 counterexample: in the graph `1 → 2 → 3` where only node 3 carries an
event reference, node 2 has exactly one incoming and one outgoing
`TENTAILS_VAR` relationship and no event reference, yet `prune_tentails`
leaves the graph unchanged (the predecessor 1 is neither branching nor
referenced, so query 3 never matches); and on the claim's own chain
`A→B→C→D` with only `A` referenced, pruning deletes `B`, `C` *and* `D` and
leaves no relationship at all, so no edge `A→D` exists afterwards. -/
theorem claim_C3_cex :
    (prune_tentails ⟨[1, 2, 3], [10], [⟨1, 2, none⟩, ⟨2, 3, none⟩], [(10, 3)]⟩ =
        ⟨[1, 2, 3], [10], [⟨1, 2, none⟩, ⟨2, 3, none⟩], [(10, 3)]⟩ ∧
      inTent ⟨[1, 2, 3], [10], [⟨1, 2, none⟩, ⟨2, 3, none⟩], [(10, 3)]⟩ 2 = 1 ∧
      outAll ⟨[1, 2, 3], [10], [⟨1, 2, none⟩, ⟨2, 3, none⟩], [(10, 3)]⟩ 2 = 1 ∧
      referenced ⟨[1, 2, 3], [10], [⟨1, 2, none⟩, ⟨2, 3, none⟩], [(10, 3)]⟩ 2 =
        false) ∧
    prune_tentails
        ⟨[1, 2, 3, 4], [10],
          [⟨1, 2, some "t1"⟩, ⟨2, 3, some "t2"⟩, ⟨3, 4, some "t3"⟩],
          [(10, 1)]⟩ =
      ⟨[1], [10], [], [(10, 1)]⟩ :=
  ⟨⟨prune_eval_fixed, by decide, by decide, by decide⟩, prune_eval_chainDrop⟩

/-- C3 (amended): provided every `HAS_VAR` relationship stems from an
`EventInst` node, the pruned graph contains no pass-through configuration
that query 3 matches: no surviving node `v2` with exactly one incoming
relationship (from a node `v1` distinct from `v2`) and one outgoing
relationship (to a surviving node `v3` distinct from `v2`), no event
reference, and a predecessor `v1` that is branching (total degree `> 2`) or
event-referenced.  Nodes whose predecessor chain is neither branching nor
referenced are *not* collapsed.  For the chain `A→B→C→D` with *both* `A`
and `D` event-referenced, `B` and `C` are deleted and a single relationship
`A→D` remains. -/
theorem claim_C3 (g : Graph) (hW : ∀ p ∈ g.hasVar, p.1 ∈ g.events) :
    (∀ e1 e2 : TEdge, e1 ∈ (prune_tentails g).tent →
      e2 ∈ (prune_tentails g).tent → e1.dst = e2.src →
      e1.src ≠ e1.dst → e1.dst ≠ e2.dst →
      e1.src ∈ (prune_tentails g).vars →
      e1.dst ∈ (prune_tentails g).vars →
      e2.dst ∈ (prune_tentails g).vars →
      inTent (prune_tentails g) e1.dst = 1 →
      outAll (prune_tentails g) e1.dst = 1 →
      referenced (prune_tentails g) e1.dst = false →
      (2 < degAll (prune_tentails g) e1.src ∨
        referenced (prune_tentails g) e1.src = true) → False) ∧
    prune_tentails
        ⟨[1, 2, 3, 4], [10, 11],
          [⟨1, 2, some "t1"⟩, ⟨2, 3, some "t2"⟩, ⟨3, 4, some "t3"⟩],
          [(10, 1), (11, 4)]⟩ =
      ⟨[1, 4], [10, 11], [⟨1, 4, none⟩], [(10, 1), (11, 4)]⟩ := by
  refine ⟨?_, prune_eval_collapse⟩
  intro e1 e2 he1 he2 hds hne12 hne23 hm1 hm2 hm3 hin hout href hcond
  have hW' : ∀ p ∈ (prune_tentails g).hasVar, p.1 ∈ (prune_tentails g).events :=
    prune_hasVar_events g hW
  have hfix : findCollapse (prune_tentails g) = none :=
    (pruneLoop_fix { g with tent := dedupTent g.tent }).2
  have hfalse := findCollapse_none hfix e1 he1 e2 he2
  have hhv0 :
      ((prune_tentails g).hasVar.filter (fun p => p.2 == e1.dst)).length = 0 := by
    have hnil : (prune_tentails g).hasVar.filter (fun p => p.2 == e1.dst) = [] := by
      refine List.eq_nil_iff_forall_not_mem.mpr ?_
      intro p hp
      have hmem := List.mem_of_mem_filter hp
      have hpv := List.of_mem_filter hp
      have hr : referenced (prune_tentails g) e1.dst = true := by
        rw [referenced, List.any_eq_true]
        refine ⟨p, hmem, ?_⟩
        rw [Bool.and_eq_true]
        exact ⟨by simpa using hW' p hmem, hpv⟩
      rw [hr] at href
      cases href
    rw [hnil]
    rfl
  have houtf : ∀ e ∈ (prune_tentails g).tent, e.src = e1.dst → e = e2 := by
    intro e he hesrc
    have h1 : e ∈ (prune_tentails g).tent.filter (fun e => e.src == e1.dst) :=
      List.mem_filter.mpr ⟨he, by simp [hesrc]⟩
    have h2 : e2 ∈ (prune_tentails g).tent.filter (fun e => e.src == e1.dst) :=
      List.mem_filter.mpr ⟨he2, by simp [hds.symm]⟩
    exact mem_length_one_eq hout h1 h2
  have hdeg : degAll (prune_tentails g) e1.dst = 2 := by
    rw [degAll, hhv0,
      length_filter_or_split (prune_tentails g).tent
        (fun e => e.src == e1.dst) (fun e => e.dst == e1.dst)]
    have hcongr :
        (prune_tentails g).tent.filter
            (fun e => e.src == e1.dst && !(e.dst == e1.dst)) =
          (prune_tentails g).tent.filter (fun e => e.src == e1.dst) := by
      refine List.filter_congr ?_
      intro e he
      cases hesrc : (e.src == e1.dst)
      · simp [hesrc]
      · have hee2 := houtf e he (beq_iff_eq.mp hesrc)
        subst hee2
        simp only [hesrc, Bool.true_and]
        simp [Bool.not_eq_true', beq_eq_false_iff_ne]
        exact fun hcontra => hne23 hcontra.symm
    rw [hcongr]
    have h1 : ((prune_tentails g).tent.filter
        (fun e => e.dst == e1.dst)).length = 1 := hin
    have h2 : ((prune_tentails g).tent.filter
        (fun e => e.src == e1.dst)).length = 1 := hout
    omega
  have hcoll : collPred (prune_tentails g) e1 e2 = true := by
    rw [collPred]
    simp only [Bool.and_eq_true, Bool.or_eq_true]
    refine ⟨⟨⟨⟨⟨⟨?_, ?_⟩, ?_⟩, ?_⟩, ?_⟩, ?_⟩, ?_⟩
    · have hne : e1 ≠ e2 := by
        intro h
        subst h
        exact hne12 hds.symm
      simp [hne]
    · exact beq_iff_eq.mpr hds
    · simpa using hm1
    · simpa using hm2
    · simpa using hm3
    · exact beq_iff_eq.mpr hdeg
    · rcases hcond with hlt | href2
      · exact Or.inl (by simpa using hlt)
      · exact Or.inr href2
  rw [hfalse] at hcoll
  cases hcoll

/-- C3 applied at a concrete graph: the event-source hypothesis holds of the
triangle graph by evaluation, and the scenario clause is extracted. -/
theorem claim_C3_witness :
    prune_tentails
        ⟨[1, 2, 3, 4], [10, 11],
          [⟨1, 2, some "t1"⟩, ⟨2, 3, some "t2"⟩, ⟨3, 4, some "t3"⟩],
          [(10, 1), (11, 4)]⟩ =
      ⟨[1, 4], [10, 11], [⟨1, 4, none⟩], [(10, 1), (11, 4)]⟩ :=
  (claim_C3 ⟨[1, 2, 3], [10], [⟨1, 2, none⟩, ⟨2, 3, none⟩], [(10, 3)]⟩
    (by decide)).2

/-! ### Reachability preservation -/

theorem collPred_facts {g : Graph} {e1 e2 : TEdge}
    (h : collPred g e1 e2 = true) :
    e1 ≠ e2 ∧ e1.dst = e2.src ∧ e1.src ∈ g.vars ∧ e1.dst ∈ g.vars ∧
      e2.dst ∈ g.vars ∧ degAll g e1.dst = 2 ∧
      (2 < degAll g e1.src ∨ referenced g e1.src = true) := by
  simp only [collPred, Bool.and_eq_true, Bool.or_eq_true] at h
  obtain ⟨⟨⟨⟨⟨⟨h1, h2⟩, h3⟩, h4⟩, h5⟩, h6⟩, h7⟩ := h
  refine ⟨by simpa using h1, beq_iff_eq.mp h2, by simpa using h3,
    by simpa using h4, by simpa using h5, beq_iff_eq.mp h6, ?_⟩
  rcases h7 with h | h
  · exact Or.inl (by simpa using h)
  · exact Or.inr h

theorem findSink_props {g : Graph} {v : Nat} (h : findSink g = some v) :
    outAll g v = 0 ∧ referenced g v = false := by
  have := List.find?_some h
  simp only [Bool.and_eq_true, beq_iff_eq, Bool.not_eq_true'] at this
  exact this

theorem findCollapseIn_mem {g : Graph} : ∀ {l : List TEdge} {e1 e2 : TEdge},
    findCollapseIn g l = some (e1, e2) → e1 ∈ l ∧ e2 ∈ g.tent := by
  intro l
  induction l with
  | nil => intro e1 e2 h; cases h
  | cons a es ih =>
    intro e1 e2 h
    rw [findCollapseIn] at h
    rcases hf : g.tent.find? (fun e2 => collPred g a e2) with _ | e2h
    · rw [hf] at h
      obtain ⟨h1, h2⟩ := ih h
      exact ⟨List.mem_cons_of_mem _ h1, h2⟩
    · rw [hf] at h
      obtain ⟨rfl, rfl⟩ : a = e1 ∧ e2h = e2 := by simpa using h
      exact ⟨List.mem_cons_self _ _, List.mem_of_find?_eq_some hf⟩

theorem findCollapse_mem {g : Graph} {e1 e2 : TEdge}
    (h : findCollapse g = some (e1, e2)) : e1 ∈ g.tent ∧ e2 ∈ g.tent :=
  findCollapseIn_mem h

theorem two_mem_le_length {α : Type} [DecidableEq α] {l : List α} {a b : α}
    (hne : a ≠ b) (ha : a ∈ l) (hb : b ∈ l) : 2 ≤ l.length := by
  have hb' : b ∈ l.erase a :=
    (List.mem_erase_of_ne (fun h => hne h.symm)).mpr hb
  have h1 := List.length_erase_add_one ha
  have h2 : 0 < (l.erase a).length := List.length_pos.mpr (List.ne_nil_of_mem hb')
  omega

theorem mem_length_two_eq {α : Type} {l : List α} (h : l.length = 2)
    {a b : α} (hne : a ≠ b) (ha : a ∈ l) (hb : b ∈ l) :
    ∀ c ∈ l, c = a ∨ c = b := by
  obtain ⟨x, y, rfl⟩ := List.length_eq_two.mp h
  intro c hc
  rcases List.mem_cons.mp ha with rfl | ha'
  · have hby : b = y := by
      rcases List.mem_cons.mp hb with rfl | hb'
      · exact absurd rfl hne
      · exact (List.mem_singleton.mp hb').symm ▸ rfl
    subst hby
    rcases List.mem_cons.mp hc with rfl | hc'
    · exact Or.inl rfl
    · exact Or.inr (List.mem_singleton.mp hc')
  · have hax : a = y := List.mem_singleton.mp ha'
    subst hax
    have hbx : b = x := by
      rcases List.mem_cons.mp hb with rfl | hb'
      · rfl
      · exact absurd (List.mem_singleton.mp hb').symm hne
    subst hbx
    rcases List.mem_cons.mp hc with rfl | hc'
    · exact Or.inr rfl
    · exact Or.inl (List.mem_singleton.mp hc')

/-- The incident-relationship filter at the middle node of a matched
collapse triple contains exactly the two matched relationships. -/
theorem collPred_incident {g : Graph} {e1 e2 : TEdge}
    (hp : collPred g e1 e2 = true) (he1 : e1 ∈ g.tent) (he2 : e2 ∈ g.tent) :
    ∀ e ∈ g.tent, e.src = e1.dst ∨ e.dst = e1.dst → e = e1 ∨ e = e2 := by
  obtain ⟨hne, hds, _, _, _, hdeg, _⟩ := collPred_facts hp
  have hmem1 : e1 ∈ g.tent.filter
      (fun e => e.src == e1.dst || e.dst == e1.dst) :=
    List.mem_filter.mpr ⟨he1, by simp⟩
  have hmem2 : e2 ∈ g.tent.filter
      (fun e => e.src == e1.dst || e.dst == e1.dst) :=
    List.mem_filter.mpr ⟨he2, by simp [hds.symm]⟩
  have hge : 2 ≤ (g.tent.filter
      (fun e => e.src == e1.dst || e.dst == e1.dst)).length :=
    two_mem_le_length hne hmem1 hmem2
  have hle : (g.tent.filter
      (fun e => e.src == e1.dst || e.dst == e1.dst)).length ≤ 2 := by
    simp only [degAll] at hdeg
    omega
  intro e he hinc
  have hlen : (g.tent.filter
      (fun e => e.src == e1.dst || e.dst == e1.dst)).length = 2 := by omega
  refine mem_length_two_eq hlen hne hmem1 hmem2 e ?_
  refine List.mem_filter.mpr ⟨he, ?_⟩
  rcases hinc with h | h <;> simp [h]

/-- A matched middle node carries no `HAS_VAR` relationship: its total
degree of 2 is spent on the two matched `TENTAILS_VAR` relationships. -/
theorem collPred_hasVar_nil {g : Graph} {e1 e2 : TEdge}
    (hp : collPred g e1 e2 = true) (he1 : e1 ∈ g.tent) (he2 : e2 ∈ g.tent) :
    g.hasVar.filter (fun p => p.2 == e1.dst) = [] := by
  obtain ⟨hne, hds, _, _, _, hdeg, _⟩ := collPred_facts hp
  have hmem1 : e1 ∈ g.tent.filter
      (fun e => e.src == e1.dst || e.dst == e1.dst) :=
    List.mem_filter.mpr ⟨he1, by simp⟩
  have hmem2 : e2 ∈ g.tent.filter
      (fun e => e.src == e1.dst || e.dst == e1.dst) :=
    List.mem_filter.mpr ⟨he2, by simp [hds.symm]⟩
  have hge : 2 ≤ (g.tent.filter
      (fun e => e.src == e1.dst || e.dst == e1.dst)).length :=
    two_mem_le_length hne hmem1 hmem2
  simp only [degAll] at hdeg
  have : (g.hasVar.filter (fun p => p.2 == e1.dst)).length = 0 := by omega
  exact List.length_eq_zero.mp this

/-- The middle node of a matched collapse triple is distinct from the
predecessor: a self-loop at the middle node would make it unreferenced with
total degree exactly 2, so the branching-or-referenced condition on the
predecessor could not hold. -/
theorem collPred_src_ne {g : Graph} {e1 e2 : TEdge}
    (hp : collPred g e1 e2 = true) (he1 : e1 ∈ g.tent) (he2 : e2 ∈ g.tent) :
    e1.src ≠ e1.dst := by
  intro heq
  obtain ⟨_, _, _, _, _, hdeg, hcond⟩ := collPred_facts hp
  have hnil := collPred_hasVar_nil hp he1 he2
  have href : referenced g e1.dst = false := by
    rw [Bool.eq_false_iff]
    intro hr
    rw [referenced, List.any_eq_true] at hr
    obtain ⟨p, hmem, hpp⟩ := hr
    rw [Bool.and_eq_true] at hpp
    have : p ∈ g.hasVar.filter (fun p => p.2 == e1.dst) :=
      List.mem_filter.mpr ⟨hmem, hpp.2⟩
    rw [hnil] at this
    cases this
  rcases hcond with h | h
  · rw [heq, hdeg] at h
    omega
  · rw [heq, href] at h
    cases h

theorem referenced_removeNode_self (g : Graph) (v : Nat) :
    referenced (removeNode g v) v = false := by
  rw [Bool.eq_false_iff]
  intro hr
  rw [referenced, List.any_eq_true] at hr
  obtain ⟨p, hp, hpp⟩ := hr
  have hfil := List.of_mem_filter hp
  rw [Bool.and_eq_true] at hpp hfil
  rw [Bool.not_eq_true', hpp.2] at hfil
  cases hfil.2

theorem degAll_removeNode_self (g : Graph) (v : Nat) :
    degAll (removeNode g v) v = 0 := by
  rw [degAll]
  have h1 : (removeNode g v).tent.filter
      (fun e => e.src == v || e.dst == v) = [] := by
    refine List.eq_nil_iff_forall_not_mem.mpr ?_
    intro e he
    have hfil := List.of_mem_filter (List.mem_of_mem_filter he)
    have hinc := List.of_mem_filter he
    rw [Bool.and_eq_true, Bool.not_eq_true', Bool.not_eq_true'] at hfil
    rw [Bool.or_eq_true] at hinc
    rcases hinc with h | h
    · rw [hfil.1] at h
      cases h
    · rw [hfil.2] at h
      cases h
  have h2 : (removeNode g v).hasVar.filter (fun p => p.2 == v) = [] := by
    refine List.eq_nil_iff_forall_not_mem.mpr ?_
    intro p hp
    have hfil := List.of_mem_filter (List.mem_of_mem_filter hp)
    have hinc := List.of_mem_filter hp
    rw [Bool.and_eq_true, Bool.not_eq_true', Bool.not_eq_true'] at hfil
    rw [hfil.2] at hinc
    cases hinc
  rw [h1, h2]
  rfl

theorem keepClosed_of_wf (g : Graph)
    (hend : ∀ e ∈ g.tent, e.src ∈ g.vars ∧ e.dst ∈ g.vars)
    (hhv : ∀ p ∈ g.hasVar, p.2 ∈ g.vars) : keepClosed g := by
  intro w hw
  rcases hw with hr | hd
  · rw [referenced, List.any_eq_true] at hr
    obtain ⟨p, hp, hpp⟩ := hr
    rw [Bool.and_eq_true] at hpp
    rw [← beq_iff_eq.mp hpp.2]
    exact hhv p hp
  · simp only [degAll] at hd
    by_cases ht : g.tent.filter (fun e => e.src == w || e.dst == w) = []
    · rw [ht] at hd
      simp only [List.length_nil, Nat.zero_add] at hd
      have hpos : 0 < (g.hasVar.filter (fun p => p.2 == w)).length := by omega
      obtain ⟨p, hp⟩ := List.exists_mem_of_length_pos hpos
      have hmem := List.mem_of_mem_filter hp
      have hpw0 := List.of_mem_filter hp
      have hpw : (p.2 == w) = true := hpw0
      rw [← beq_iff_eq.mp hpw]
      exact hhv p hmem
    · obtain ⟨e, he⟩ := List.exists_mem_of_ne_nil _ ht
      have hmem := List.mem_of_mem_filter he
      have hic0 := List.of_mem_filter he
      have hic : (e.src == w || e.dst == w) = true := hic0
      rw [Bool.or_eq_true] at hic
      rcases hic with h | h
      · rw [← beq_iff_eq.mp h]
        exact (hend e hmem).1
      · rw [← beq_iff_eq.mp h]
        exact (hend e hmem).2

theorem keepClosed_removeNode {g : Graph} (h : keepClosed g) (v : Nat) :
    keepClosed (removeNode g v) := by
  intro w hw
  have hwv : w ≠ v := by
    rintro rfl
    rcases hw with hr | hd
    · rw [referenced_removeNode_self] at hr
      cases hr
    · rw [degAll_removeNode_self] at hd
      omega
  have hg : referenced g w = true ∨ 1 < degAll g w := by
    rcases hw with hr | hd
    · left
      rw [referenced, List.any_eq_true] at hr ⊢
      obtain ⟨p, hp, hpp⟩ := hr
      exact ⟨p, List.mem_of_mem_filter hp, hpp⟩
    · right
      refine lt_of_lt_of_le hd ?_
      simp only [degAll]
      refine Nat.add_le_add ?_ ?_
      · exact ((List.filter_sublist g.tent).filter _).length_le
      · exact ((List.filter_sublist g.hasVar).filter _).length_le
  exact (List.mem_erase_of_ne hwv).mpr (h w hg)

theorem keepClosed_mergeTent {g : Graph} (h : keepClosed g) (a b : Nat)
    (ha : a ∈ g.vars)
    (hb : b ∈ g.vars ∨ (referenced g b = false ∧ degAll g b = 0)) :
    keepClosed (mergeTent g a b) := by
  rw [mergeTent]
  split
  · exact h
  · intro w hw
    show w ∈ g.vars
    by_cases hwa : w = a
    · subst hwa
      exact ha
    by_cases hwb : w = b
    · subst hwb
      rcases hb with hb | ⟨hrf, hdg⟩
      · exact hb
      · exfalso
        rcases hw with hr | hd
        · rw [show referenced { g with tent := g.tent ++ [⟨a, w, none⟩] } w =
            referenced g w from rfl, hrf] at hr
          cases hr
        · have hdd : degAll { g with tent := g.tent ++ [⟨a, w, none⟩] } w =
              degAll g w + 1 := by
            simp only [degAll, List.filter_append]
            have h2 : ([⟨a, w, none⟩] : List TEdge).filter
                (fun e => e.src == w || e.dst == w) = [⟨a, w, none⟩] := by
              simp
            rw [h2]
            simp only [List.length_append, List.length_singleton]
            omega
          rw [hdd, hdg] at hd
          omega
    · have hdegeq : degAll { g with tent := g.tent ++ [⟨a, b, none⟩] } w =
          degAll g w := by
        simp only [degAll, List.filter_append]
        have h1 : ((⟨a, b, none⟩ : TEdge).src == w) = false := by
          refine beq_eq_false_iff_ne.mpr ?_
          exact fun hh => hwa hh.symm
        have h2 : ((⟨a, b, none⟩ : TEdge).dst == w) = false := by
          refine beq_eq_false_iff_ne.mpr ?_
          exact fun hh => hwb hh.symm
        have h3 : ([⟨a, b, none⟩] : List TEdge).filter
            (fun e => e.src == w || e.dst == w) = [] := by
          simp [List.filter_cons, h1, h2]
        rw [h3, List.append_nil]
      rcases hw with hr | hd
      · exact h w (Or.inl hr)
      · exact h w (Or.inr (hdegeq ▸ hd))

theorem keepClosed_collapseAt {g : Graph} (h : keepClosed g) {e1 e2 : TEdge}
    (he1 : e1 ∈ g.tent) (he2 : e2 ∈ g.tent)
    (hp : collPred g e1 e2 = true) : keepClosed (collapseAt g e1 e2) := by
  obtain ⟨hne, hds, hm1, hm2, hm3, hdeg, hcond⟩ := collPred_facts hp
  have hsne := collPred_src_ne hp he1 he2
  rw [collapseAt]
  refine keepClosed_mergeTent (keepClosed_removeNode h e1.dst) e1.src e2.dst
    ?_ ?_
  · exact (List.mem_erase_of_ne hsne).mpr hm1
  · by_cases hv3 : e2.dst = e1.dst
    · right
      rw [hv3]
      exact ⟨referenced_removeNode_self g e1.dst, degAll_removeNode_self g e1.dst⟩
    · left
      exact (List.mem_erase_of_ne hv3).mpr hm3

theorem prune_keepClosed (g : Graph)
    (hend : ∀ e ∈ g.tent, e.src ∈ g.vars ∧ e.dst ∈ g.vars)
    (hhv : ∀ p ∈ g.hasVar, p.2 ∈ g.vars) :
    keepClosed (prune_tentails g) := by
  refine pruneLoop_pres keepClosed ?_ ?_ { g with tent := dedupTent g.tent } ?_
  · intro h v _ hP
    exact keepClosed_removeNode hP v
  · intro h e1 e2 _ hc hP
    obtain ⟨he1, he2⟩ := findCollapse_mem hc
    exact keepClosed_collapseAt hP he1 he2 (findCollapse_pred hc)
  · refine keepClosed_of_wf _ ?_ ?_
    · intro e he
      exact hend e (dedupTentGo_subset g.tent [] e he)
    · exact hhv

theorem reach_lift {g g' : Graph} (f : Nat → Nat)
    (hstep : ∀ x y, tentRel g x y → reach g' (f x) (f y)) :
    ∀ {x y : Nat}, reach g x y → reach g' (f x) (f y) := by
  intro x y h
  have h' : Relation.ReflTransGen (tentRel g) x y := h
  clear h
  induction h' with
  | refl => exact Relation.ReflTransGen.refl
  | tail _ hstep' ih => exact Relation.ReflTransGen.trans ih (hstep _ _ hstep')

theorem reach_mono {g g' : Graph} (hsub : ∀ e ∈ g'.tent, e ∈ g.tent)
    {x y : Nat} (h : reach g' x y) : reach g x y := by
  have hstep : ∀ a b, tentRel g' a b → reach g a b := by
    rintro a b ⟨e, he, h1, h2⟩
    exact Relation.ReflTransGen.single ⟨e, hsub e he, h1, h2⟩
  exact reach_lift (fun z => z) hstep h

theorem reach_sink_eq {g : Graph} {v b : Nat} (hout : outAll g v = 0)
    (h : reach g v b) : v = b := by
  have h' : Relation.ReflTransGen (tentRel g) v b := h
  rcases Relation.ReflTransGen.cases_head h' with rfl | ⟨c, hvc, _⟩
  · rfl
  · exfalso
    obtain ⟨e, he, h1, h2⟩ := hvc
    have hf : e ∈ g.tent.filter (fun e => e.src == v) :=
      List.mem_filter.mpr ⟨he, by simp [h1]⟩
    have hnil : g.tent.filter (fun e => e.src == v) = [] :=
      List.length_eq_zero.mp hout
    rw [hnil] at hf
    cases hf

theorem reach_removeNode_sink {g : Graph} {v : Nat} (hout : outAll g v = 0)
    {a b : Nat} (ha : a ≠ v) (hb : b ≠ v) :
    reach g a b ↔ reach (removeNode g v) a b := by
  constructor
  · intro h
    have h' : Relation.ReflTransGen (tentRel g) a b := h
    have key : ∀ {x : Nat}, Relation.ReflTransGen (tentRel g) x b →
        x ≠ v → reach (removeNode g v) x b := by
      intro x hx
      induction hx using Relation.ReflTransGen.head_induction_on with
      | refl => exact fun _ => Relation.ReflTransGen.refl
      | head hstep htail ih =>
        intro hxv
        obtain ⟨e, he, h1, h2⟩ := hstep
        subst h1
        subst h2
        have hcv : e.dst ≠ v := by
          intro hdv
          rw [hdv] at htail
          exact hb (reach_sink_eq hout htail).symm
        have he' : e ∈ (removeNode g v).tent :=
          List.mem_filter.mpr ⟨he, by simp [hxv, hcv]⟩
        exact Relation.ReflTransGen.head ⟨e, he', rfl, rfl⟩ (ih hcv)
    exact key h' ha
  · exact reach_mono (fun e he => List.mem_of_mem_filter he)

theorem mergeTent_tent_mem {g : Graph} {e : TEdge} (he : e ∈ g.tent)
    (a b : Nat) : e ∈ (mergeTent g a b).tent := by
  rw [mergeTent]
  split
  · exact he
  · exact List.mem_append_left _ he

theorem mergeTent_rel (g : Graph) (a b : Nat) :
    tentRel (mergeTent g a b) a b := by
  rw [mergeTent]
  split
  · rename_i hany
    rw [List.any_eq_true] at hany
    obtain ⟨e, he, hee⟩ := hany
    rw [Bool.and_eq_true] at hee
    exact ⟨e, he, beq_iff_eq.mp hee.1, beq_iff_eq.mp hee.2⟩
  · exact ⟨⟨a, b, none⟩,
      List.mem_append_right _ (List.mem_singleton.mpr rfl), rfl, rfl⟩

theorem reach_collapseAt {g : Graph} {e1 e2 : TEdge}
    (he1 : e1 ∈ g.tent) (he2 : e2 ∈ g.tent) (hp : collPred g e1 e2 = true)
    {a b : Nat} (ha : a ≠ e1.dst) (hb : b ≠ e1.dst) :
    reach g a b ↔ reach (collapseAt g e1 e2) a b := by
  obtain ⟨hne, hds, hm1, hm2, hm3, hdeg, hcond⟩ := collPred_facts hp
  have hsne := collPred_src_ne hp he1 he2
  have hic := collPred_incident hp he1 he2
  constructor
  · intro h
    have hf : ∀ x y, tentRel g x y →
        reach (collapseAt g e1 e2)
          (if x = e1.dst then e2.dst else x)
          (if y = e1.dst then e2.dst else y) := by
      rintro x y ⟨e, he, h1, h2⟩
      by_cases hx : x = e1.dst
      · by_cases hy : y = e1.dst
        · rw [if_pos hx, if_pos hy]
          exact Relation.ReflTransGen.refl
        · rw [if_pos hx, if_neg hy]
          have hor : e = e1 ∨ e = e2 := hic e he (Or.inl (h1.trans hx))
          rcases hor with rfl | rfl
          · exact absurd (h1.trans hx) hsne
          · rw [← h2]
            exact Relation.ReflTransGen.refl
      · by_cases hy : y = e1.dst
        · rw [if_neg hx, if_pos hy]
          have hor : e = e1 ∨ e = e2 := hic e he (Or.inr (h2.trans hy))
          rcases hor with rfl | rfl
          · rw [← h1]
            exact Relation.ReflTransGen.single (mergeTent_rel _ _ _)
          · exact absurd (h1.symm.trans hds.symm) hx
        · rw [if_neg hx, if_neg hy]
          have hxe : e.src ≠ e1.dst := by
            rw [h1]
            exact hx
          have hye : e.dst ≠ e1.dst := by
            rw [h2]
            exact hy
          have he' : e ∈ (removeNode g e1.dst).tent :=
            List.mem_filter.mpr ⟨he, by simp [hxe, hye]⟩
          exact Relation.ReflTransGen.single
            ⟨e, mergeTent_tent_mem he' _ _, h1, h2⟩
    have hres := reach_lift (fun z => if z = e1.dst then e2.dst else z) hf h
    simp only [if_neg ha, if_neg hb] at hres
    exact hres
  · intro h
    have hf : ∀ x y, tentRel (collapseAt g e1 e2) x y → reach g x y := by
      rintro x y ⟨e, he, h1, h2⟩
      rw [collapseAt, mergeTent] at he
      split at he
      · exact Relation.ReflTransGen.single
          ⟨e, List.mem_of_mem_filter he, h1, h2⟩
      · rcases List.mem_append.mp he with he' | he'
        · exact Relation.ReflTransGen.single
            ⟨e, List.mem_of_mem_filter he', h1, h2⟩
        · have hee : e = ⟨e1.src, e2.dst, none⟩ := List.mem_singleton.mp he'
          subst hee
          rw [← h1, ← h2]
          exact Relation.ReflTransGen.head ⟨e1, he1, rfl, rfl⟩
            (Relation.ReflTransGen.single ⟨e2, he2, hds.symm, rfl⟩)
    exact reach_lift (fun z => z) hf h

theorem dedupTentGo_key : ∀ (l : List TEdge) (seen : List (Nat × Nat)),
    ∀ e ∈ l, (e.src, e.dst) ∈ seen ∨
      ∃ e2 ∈ dedupTentGo seen l, e2.src = e.src ∧ e2.dst = e.dst := by
  intro l
  induction l with
  | nil => intro seen e he; cases he
  | cons d l ih =>
    intro seen e he
    rw [dedupTentGo]
    split
    · rename_i hin
      rcases List.mem_cons.mp he with rfl | he'
      · exact Or.inl hin
      · exact ih seen e he'
    · rcases List.mem_cons.mp he with rfl | he'
      · exact Or.inr ⟨e, List.mem_cons_self _ _, rfl, rfl⟩
      · rcases ih ((d.src, d.dst) :: seen) e he' with hseen | ⟨e2, hmem, hk⟩
        · rcases List.mem_cons.mp hseen with heq | hseen'
          · refine Or.inr ⟨d, List.mem_cons_self _ _, ?_, ?_⟩
            · exact (congrArg Prod.fst heq).symm
            · exact (congrArg Prod.snd heq).symm
          · exact Or.inl hseen'
        · exact Or.inr ⟨e2, List.mem_cons_of_mem _ hmem, hk⟩

theorem reach_dedup (g : Graph) {a b : Nat} :
    reach g a b ↔ reach { g with tent := dedupTent g.tent } a b := by
  constructor
  · intro h
    have hf : ∀ x y, tentRel g x y →
        reach { g with tent := dedupTent g.tent } x y := by
      rintro x y ⟨e, he, h1, h2⟩
      rcases dedupTentGo_key g.tent [] e he with hseen | ⟨e2, hmem, hk1, hk2⟩
      · cases hseen
      · exact Relation.ReflTransGen.single
          ⟨e2, hmem, hk1.trans h1, hk2.trans h2⟩
    exact reach_lift (fun z => z) hf h
  · exact reach_mono (fun e he => dedupTentGo_subset g.tent [] e he)

theorem reach_pruneLoop : ∀ (g : Graph), g.vars.Nodup → ∀ (a b : Nat),
    a ∈ (pruneLoop g).vars → b ∈ (pruneLoop g).vars →
    (reach g a b ↔ reach (pruneLoop g) a b) := by
  have main : ∀ (n : Nat) (g : Graph), g.vars.length = n → g.vars.Nodup →
      ∀ (a b : Nat), a ∈ (pruneLoop g).vars → b ∈ (pruneLoop g).vars →
      (reach g a b ↔ reach (pruneLoop g) a b) := by
    intro n
    induction n using Nat.strong_induction_on with
    | _ n ih =>
      intro g hn hnd a b ha hb
      rcases hs : findSink g with _ | v
      · rcases hc : findCollapse g with _ | ⟨e1, e2⟩
        · rw [pruneLoop_done g hs hc]
        · rw [pruneLoop_coll g e1 e2 hs hc] at ha hb ⊢
          obtain ⟨he1, he2⟩ := findCollapse_mem hc
          have hp := findCollapse_pred hc
          have hsub := pruneLoop_vars_subset (collapseAt g e1 e2)
          have hval : (collapseAt g e1 e2).vars = g.vars.erase e1.dst := by
            rw [collapseAt, mergeTent]
            split <;> rfl
          have ha' : a ∈ g.vars.erase e1.dst := hval ▸ hsub ha
          have hb' : b ∈ g.vars.erase e1.dst := hval ▸ hsub hb
          have hane : a ≠ e1.dst := ((List.Nodup.mem_erase_iff hnd).mp ha').1
          have hbne : b ≠ e1.dst := ((List.Nodup.mem_erase_iff hnd).mp hb').1
          have hnd' : (collapseAt g e1 e2).vars.Nodup := by
            rw [hval]
            exact hnd.erase _
          have hlen : (collapseAt g e1 e2).vars.length < n := by
            rw [← hn, hval]
            have := List.length_erase_add_one (collPred_dst_mem hp)
            omega
          exact (reach_collapseAt he1 he2 hp hane hbne).trans
            (ih _ hlen _ rfl hnd' a b ha hb)
      · rw [pruneLoop_sink g v hs] at ha hb ⊢
        obtain ⟨hout, _⟩ := findSink_props hs
        have hsub := pruneLoop_vars_subset (removeNode g v)
        have ha' : a ∈ g.vars.erase v := hsub ha
        have hb' : b ∈ g.vars.erase v := hsub hb
        have hane : a ≠ v := ((List.Nodup.mem_erase_iff hnd).mp ha').1
        have hbne : b ≠ v := ((List.Nodup.mem_erase_iff hnd).mp hb').1
        have hnd' : (removeNode g v).vars.Nodup := hnd.erase _
        have hlen : (removeNode g v).vars.length < n := by
          rw [← hn]
          exact removeNode_vars_lt (findSink_mem hs)
        exact (reach_removeNode_sink hout hane hbne).trans
          (ih _ hlen _ rfl hnd' a b ha hb)
  intro g hnd a b ha hb
  exact main _ g rfl hnd a b ha hb

/-- C5: for nodes `a` and `b` that are event-referenced or have more than
one incident relationship both before and after pruning, `b` is reachable
from `a` along `TENTAILS_VAR` relationships in the pruned graph exactly
when it was reachable in the original graph.  The store-shape hypotheses
say that the node list has no duplicates and that every relationship
endpoint is a `VariableType` node of the graph. -/
theorem claim_C5 (g : Graph) (a b : Nat)
    (hnd : g.vars.Nodup)
    (hend : ∀ e ∈ g.tent, e.src ∈ g.vars ∧ e.dst ∈ g.vars)
    (hhv : ∀ p ∈ g.hasVar, p.2 ∈ g.vars)
    (hbefa : referenced g a = true ∨ 1 < degAll g a)
    (hbefb : referenced g b = true ∨ 1 < degAll g b)
    (hafta : referenced (prune_tentails g) a = true ∨
      1 < degAll (prune_tentails g) a)
    (haftb : referenced (prune_tentails g) b = true ∨
      1 < degAll (prune_tentails g) b) :
    (reach g a b ↔ reach (prune_tentails g) a b) := by
  have hkc : keepClosed (prune_tentails g) := prune_keepClosed g hend hhv
  have hma : a ∈ (prune_tentails g).vars := hkc a hafta
  have hmb : b ∈ (prune_tentails g).vars := hkc b haftb
  have hnd' : ({ g with tent := dedupTent g.tent } : Graph).vars.Nodup := hnd
  exact (reach_dedup g).trans
    (reach_pruneLoop { g with tent := dedupTent g.tent } hnd' a b hma hmb)

/-- C5 applied at the doubly-referenced chain `1 → 2 → 3 → 4`: nodes 1 and 4
are event-referenced before and after pruning, and reachability between
them is preserved. -/
theorem claim_C5_witness :
    (reach ⟨[1, 2, 3, 4], [10, 11],
        [⟨1, 2, some "t1"⟩, ⟨2, 3, some "t2"⟩, ⟨3, 4, some "t3"⟩],
        [(10, 1), (11, 4)]⟩ 1 4 ↔
      reach (prune_tentails ⟨[1, 2, 3, 4], [10, 11],
        [⟨1, 2, some "t1"⟩, ⟨2, 3, some "t2"⟩, ⟨3, 4, some "t3"⟩],
        [(10, 1), (11, 4)]⟩) 1 4) :=
  claim_C5
    ⟨[1, 2, 3, 4], [10, 11],
      [⟨1, 2, some "t1"⟩, ⟨2, 3, some "t2"⟩, ⟨3, 4, some "t3"⟩],
      [(10, 1), (11, 4)]⟩ 1 4
    (by decide) (by decide) (by decide)
    (Or.inl (by decide)) (Or.inl (by decide))
    (Or.inl (by rw [prune_eval_collapse]; decide))
    (Or.inl (by rw [prune_eval_collapse]; decide))

end Baleen
